import Mathlib

/-!
# Schema filtering of `tbls` (`schema/filter.go`)

A shallow embedding of `schema/filter.go`: the classifier
`SepareteTablesThatAreIncludedOrNot`, the entry point `Filter`, the surgeon
`excludeTableFromSchema` and the matching helpers, followed by theorems about
them.

Conventions of the embedding.

* Go strings are Lean `String`s; `len` of a string is its UTF-8 byte size.
* Pointers are replaced by values.  A `*Relation` is only ever read through
  `r.Table.Name` and `r.ParentTable.Name`, so the table a relation points to is
  kept as a `TableRef` carrying that name.
* The in-place mutation of `*Schema` and `*Column` is explicit state passing:
  a mutating function returns the new schema next to its error.
* A Go `map[string]*Table` is an association list with at most one entry per
  key; ranging over a map goes through `Env.mapRange`, an arbitrary
  rearrangement of the entries.
* Collaborators that live outside `filter.go` (the wildcard matcher, the name
  normaliser, the closure primitive) are fields of `Env`.
-/

namespace Tbls

/-! ## Data model -/

/-- Modelled from the spec: the type `Label` is declared outside `filter.go`;
a label is a name tag attached to a table or a column. -/
structure Label where
  Name : String
  deriving DecidableEq, Repr

/-- Modelled from the spec: `Labels` is an ordered collection of `Label`. -/
abbrev Labels := List Label

/-- The part of a `*Table` that `filter.go` reads through a relation:
`r.Table.Name` and `r.ParentTable.Name`. -/
structure TableRef where
  Name : String
  deriving DecidableEq, Repr

/-- Modelled from the spec: the type `Relation` is declared outside
`filter.go`; a directed edge from `Table` (child) to `ParentTable` (parent).
`Def` tells apart several relations between the same pair of tables. -/
structure Relation where
  Table : TableRef
  ParentTable : TableRef
  Def : String
  deriving DecidableEq, Repr

/-- Modelled from the spec: the type `Column` is declared outside
`filter.go`; a column with its labels and its two lists of relation
back-references. -/
structure Column where
  Name : String
  Labels : Labels
  ChildRelations : List Relation
  ParentRelations : List Relation
  deriving DecidableEq, Repr

/-- Modelled from the spec: the type `Table` is declared outside `filter.go`;
a named table with its ordered columns and its labels. -/
structure Table where
  Name : String
  Columns : List Column
  Labels : Labels
  deriving DecidableEq, Repr

/-- Modelled from the spec: the type `Schema` is declared outside
`filter.go`; an ordered list of tables and a flat list of relations. -/
structure Schema where
  Name : String
  Tables : List Table
  Relations : List Relation
  deriving DecidableEq, Repr

/-- The type `FilterOption` of `filter.go`. -/
structure FilterOption where
  Include : List String
  Exclude : List String
  IncludeLabels : List String
  Distance : Int
  deriving DecidableEq, Repr

/-- Go `error` values that `filter.go` can return (`nil` is the absence of
one).  `errors.WithStack` only attaches a stack trace and keeps `nil`, so it
is not represented. -/
inductive Error where
  /-- An error returned by the closure primitive. -/
  | closure (msg : String)
  /-- The error `failed to separate tables. expected: %d, actual: %d`. -/
  | separate (expected actual : Nat)
  /-- The error `failed to filter table NAME: CAUSE`. -/
  | filterTable (name : String) (cause : Error)
  deriving DecidableEq, Repr

/-- A Go `map[string]*Table`: an association list, one entry per key. -/
abbrev TableMap := List (String × Table)

/-- The collaborators of `filter.go` that are defined elsewhere. -/
structure Env where
  /-- The call `wildcard.MatchSimple(pattern, name)`. -/
  MatchSimple : String → String → Bool
  /-- The call `s.NormalizeTableName(name)`. -/
  NormalizeTableName : Schema → String → String
  /-- The call `t.CollectTablesAndRelations(distance, root)`. -/
  CollectTablesAndRelations : Table → Int → Bool → Except Error (List Table × List Relation)
  /-- The order in which `range` visits the entries of a map. -/
  mapRange : TableMap → TableMap
  /-- Ranging over a map visits every entry exactly once. -/
  mapRange_perm : ∀ m : TableMap, (mapRange m).Perm m

/-- Modelled from the spec: `Schema.NormalizeTableNames` is not part of
`filter.go`; each raw pattern is looked up through the name normaliser. -/
def NormalizeTableNames (env : Env) (s : Schema) (names : List String) : List String :=
  names.map (env.NormalizeTableName s)

/-! ## Maps -/

/-- The test `_, exists := m[k]`. -/
def mapHas (m : TableMap) (k : String) : Bool :=
  m.any (fun p => p.1 == k)

/-- The assignment `m[k] = v`: any previous entry for `k` is replaced. -/
def mapSet (m : TableMap) (k : String) (v : Table) : TableMap :=
  (k, v) :: m.filter (fun p => p.1 != k)

/-- Every entry of the map is filed under the name of its table. -/
def Keyed (m : TableMap) : Prop := ∀ p ∈ m, p.1 = p.2.Name

/-! ## Matching helpers -/

/-- The call `strings.ReplaceAll(v, "*", "")`: every `*` is dropped. -/
def replaceAllStar (v : String) : String :=
  String.mk (v.data.filter (fun c => c != '*'))

/-- Go `len` of a string: the number of bytes of its UTF-8 encoding. -/
def len (v : String) : Nat := v.utf8ByteSize

/-- The function `matchLength(s, e)` of `filter.go`: the first pattern of `s`
that matches `e` decides the result. -/
def matchLength (env : Env) : List String → String → Nat × Bool
  | [], _ => (0, false)
  | v :: s, e =>
    if env.MatchSimple v e then (len (replaceAllStar v), true)
    else matchLength env s e

/-- The function `matchLabels(il, l)` of `filter.go`. -/
def matchLabels (env : Env) (il : List String) (l : Labels) : Bool :=
  l.any (fun ll => il.any (fun ill => env.MatchSimple ill ll.Name))

/-- The function `matchTableOrColumnLabels(il, t)` of `filter.go`. -/
def matchTableOrColumnLabels (env : Env) (il : List String) (t : Table) : Bool :=
  if matchLabels env il t.Labels then true
  else t.Columns.any (fun c => matchLabels env il c.Labels)

/-! ## Classifier -/

/-- The pattern list `i` of `SepareteTablesThatAreIncludedOrNot`. -/
def includePatterns (env : Env) (s : Schema) (opt : FilterOption) : List String :=
  opt.Include ++ NormalizeTableNames env s opt.Include

/-- The pattern list `e` of `SepareteTablesThatAreIncludedOrNot`. -/
def excludePatterns (env : Env) (s : Schema) (opt : FilterOption) : List String :=
  opt.Exclude ++ NormalizeTableNames env s opt.Exclude

/-- The `switch` in the first loop of `SepareteTablesThatAreIncludedOrNot`:
`true` when the table is appended to `includes`, `false` when it is appended
to `excludes`. -/
def tentative (env : Env) (s : Schema) (opt : FilterOption) (t : Table) : Bool :=
  let lmi := matchLength env (includePatterns env s opt) t.Name
  let li := lmi.1
  let mi := lmi.2
  let lme := matchLength env (excludePatterns env s opt) t.Name
  let le := lme.1
  let me := lme.2
  let ml := matchTableOrColumnLabels env opt.IncludeLabels t
  if mi then
    if me && decide (li < le) then false else true
  else if ml then
    if me then false else true
  else if opt.Include.length == 0 && opt.IncludeLabels.length == 0 then
    if me then false else true
  else false

/-- The slice `includes` after the first loop. -/
def tentativeIncludes (env : Env) (s : Schema) (opt : FilterOption) : List Table :=
  s.Tables.filter (fun t => tentative env s opt t)

/-- The slice `excludes` after the first loop. -/
def tentativeExcludes (env : Env) (s : Schema) (opt : FilterOption) : List Table :=
  s.Tables.filter (fun t => !tentative env s opt t)

/-- The inner loop over the closure `ts` of one included table: a table is
added under its name unless the name is already a key. -/
def addClosure (m : TableMap) (ts : List Table) : TableMap :=
  ts.foldl (fun acc tt => if mapHas acc tt.Name then acc else mapSet acc tt.Name tt) m

/-- The second loop of `SepareteTablesThatAreIncludedOrNot`, building
`includedMap`; the first failing closure call aborts it. -/
def collectLoop (env : Env) (opt : FilterOption) : List Table → TableMap → Except Error TableMap
  | [], m => .ok m
  | t :: rest, m =>
    match env.CollectTablesAndRelations t opt.Distance true with
    | .error err => .error err
    | .ok (ts, _) => collectLoop env opt rest (addClosure (mapSet m t.Name t) ts)

/-- The loop building `excludedMap` from the tables whose name is no key of
`includedMap`. -/
def excludedMapOf (includedMap : TableMap) (tables : List Table) : TableMap :=
  tables.foldl (fun m t => if mapHas includedMap t.Name then m else mapSet m t.Name t) []

/-- The slice built by ranging over a map and appending every value. -/
def mapValues (env : Env) (m : TableMap) : List Table :=
  (env.mapRange m).map (fun p => p.2)

/-- The method `Schema.SepareteTablesThatAreIncludedOrNot(opt)` of
`filter.go`. -/
def SepareteTablesThatAreIncludedOrNot (env : Env) (s : Schema) (opt : FilterOption) :
    Except Error (List Table × List Table) :=
  match collectLoop env opt (tentativeIncludes env s opt) [] with
  | .error err => .error err
  | .ok includedMap =>
    let includes2 := mapValues env includedMap
    let excludes2 := mapValues env (excludedMapOf includedMap s.Tables)
    if s.Tables.length != includes2.length + excludes2.length then
      .error (Error.separate s.Tables.length (includes2.length + excludes2.length))
    else .ok (includes2, excludes2)

/-! ## Surgeon -/

/-- The test kept by all three pruning loops of `excludeTableFromSchema`. -/
def keepsRelation (name : String) (r : Relation) : Bool :=
  r.Table.Name != name && r.ParentTable.Name != name

/-- The body of the loop over `t.Columns`: both relation lists of the column
are rebuilt from the entries that do not touch `name`. -/
def pruneColumn (name : String) (c : Column) : Column :=
  { c with
    ChildRelations := c.ChildRelations.filter (keepsRelation name)
    ParentRelations := c.ParentRelations.filter (keepsRelation name) }

/-- The effect of the loop over `t.Columns` on the table `t`. -/
def pruneTable (name : String) (t : Table) : Table :=
  { t with Columns := t.Columns.map (pruneColumn name) }

/-- The function `excludeTableFromSchema(name, s)` of `filter.go`: the returned pair is the
error (always `nil`) and the schema as the call leaves it.  Every table has
its columns pruned, also the one that is dropped. -/
def excludeTableFromSchema (name : String) (s : Schema) : Option Error × Schema :=
  let tables := (s.Tables.map (pruneTable name)).filter (fun t => t.Name != name)
  let relations := s.Relations.filter (keepsRelation name)
  (none, { s with Tables := tables, Relations := relations })

/-! ## Entry point -/

/-- The loop of `Filter` over `excludes`: stops at the first failing
removal, keeping what has been removed so far. -/
def filterLoop : List Table → Schema → Option Error × Schema
  | [], s => (none, s)
  | t :: rest, s =>
    match excludeTableFromSchema t.Name s with
    | (some err, s1) => (some (Error.filterTable t.Name err), s1)
    | (none, s1) => filterLoop rest s1

/-- The method `Schema.Filter(opt)` of `filter.go`: the returned pair is the error and
the schema as the call leaves it. -/
def Filter (env : Env) (s : Schema) (opt : FilterOption) : Option Error × Schema :=
  match SepareteTablesThatAreIncludedOrNot env s opt with
  | .error err => (some err, s)
  | .ok (_, excludes) => filterLoop excludes s

/-! ## Reference collaborators

Concrete collaborators on which the parametric development is instantiated. -/

/-- Modelled from the spec: glob matching of a pattern against a name, both
as lists of characters; `*` stands for zero or more characters and every
other character for itself. -/
def globMatch : List Char → List Char → Bool
  | [], n => n.isEmpty
  | c :: p, n =>
    if c = '*' then n.tails.any (fun m => globMatch p m)
    else
      match n with
      | [] => false
      | d :: n1 => c == d && globMatch p n1

/-- Modelled from the spec: the wildcard matcher `wildcard.MatchSimple` is an
external library function; simple glob semantics with `*` as the only
wildcard. -/
def MatchSimple (pattern name : String) : Bool :=
  globMatch pattern.data name.data

/-- Modelled from the spec: the tables one relation-hop away from `t` among
the tables of `s`, in either direction. -/
def neighbours (s : Schema) (t : Table) : List Table :=
  s.Tables.filter (fun u =>
    s.Relations.any (fun r =>
      (r.Table.Name == t.Name && r.ParentTable.Name == u.Name) ||
      (r.ParentTable.Name == t.Name && r.Table.Name == u.Name)))

/-- Modelled from the spec: `t` itself plus every table of `s` within
`d` relation-hops of `t`. -/
def tablesWithin (s : Schema) : Nat → Table → List Table
  | 0, t => [t]
  | d + 1, t => t :: (neighbours s t).flatMap (tablesWithin s d)

/-- Modelled from the spec: the bounded closure primitive
`Table.CollectTablesAndRelations` is not part of `filter.go`; it returns the
start table plus every table within `distance` relation-hops, a negative
distance meaning no expansion, and the relations among the collected
tables. -/
def collectWithin (s : Schema) (t : Table) (distance : Int) (_root : Bool) :
    Except Error (List Table × List Relation) :=
  let ts := tablesWithin s distance.toNat t
  .ok (ts, s.Relations.filter (fun r =>
    ts.any (fun u => u.Name == r.Table.Name) && ts.any (fun u => u.Name == r.ParentTable.Name)))

/-- The reference environment over a schema: glob matching, names that are
already normalised, closure along the relations of `s`, maps ranged in
insertion order. -/
def refEnv (s : Schema) : Env where
  MatchSimple := MatchSimple
  NormalizeTableName := fun _ n => n
  CollectTablesAndRelations := collectWithin s
  mapRange := fun m => m
  mapRange_perm := fun m => List.Perm.refl m

/-- A table with the given name and neither columns nor labels. -/
def bareTable (name : String) : Table := { Name := name, Columns := [], Labels := [] }

/-- A relation from `child` to `parent`. -/
def relationBetween (child parent : String) : Relation :=
  { Table := ⟨child⟩, ParentTable := ⟨parent⟩, Def := "" }

/-! ## Specification of the surgery -/

/-- The relation passes the pruning test of `excludeTableFromSchema` for
every name of the list. -/
def touchesNone (names : List String) (r : Relation) : Bool :=
  names.all (fun n => keepsRelation n r)

/-- The table carries none of the names of the list. -/
def notNamed (names : List String) (t : Table) : Bool :=
  names.all (fun n => t.Name != n)

/-- The column with both relation lists restricted to the relations that
touch none of the names. -/
def columnWithoutRelationsTo (names : List String) (c : Column) : Column :=
  { c with
    ChildRelations := c.ChildRelations.filter (touchesNone names)
    ParentRelations := c.ParentRelations.filter (touchesNone names) }

/-- The table with the relation lists of every column restricted to the
relations that touch none of the names; name, labels and the columns' names
and labels are those of `t`. -/
def withoutRelationsTo (names : List String) (t : Table) : Table :=
  { t with Columns := t.Columns.map (columnWithoutRelationsTo names) }

/-- Every relation of the schema has both endpoints naming tables of the
schema. -/
def RelationsClosed (s : Schema) : Prop :=
  ∀ r ∈ s.Relations,
    r.Table.Name ∈ s.Tables.map Table.Name ∧ r.ParentTable.Name ∈ s.Tables.map Table.Name

/-- No relation of the list has `name` as an endpoint. -/
def NoEndpoint (name : String) (rs : List Relation) : Prop :=
  ∀ r ∈ rs, r.Table.Name ≠ name ∧ r.ParentTable.Name ≠ name

/-- Neither the relations of the schema nor the relation lists of the
columns of its tables have `name` as an endpoint. -/
def NoReferenceTo (s : Schema) (name : String) : Prop :=
  NoEndpoint name s.Relations ∧
    ∀ t ∈ s.Tables, ∀ c ∈ t.Columns,
      NoEndpoint name c.ChildRelations ∧ NoEndpoint name c.ParentRelations

/-- What the classifier uses of a closure primitive that returns the start
table plus every table within `distance` relation-hops: the tables returned
for a distance are, by name, among those returned for any larger distance. -/
def ClosureMonotone (env : Env) : Prop :=
  ∀ (t : Table) (a b : Int) (ts ts1 : List Table) (rs rs1 : List Relation),
    a ≤ b →
    env.CollectTablesAndRelations t a true = .ok (ts, rs) →
    env.CollectTablesAndRelations t b true = .ok (ts1, rs1) →
    ∀ u ∈ ts, ∃ v ∈ ts1, v.Name = u.Name

/-- The count of non-wildcard characters of a pattern: its characters other
than `*`, as the specification words the specificity. -/
def literalCount (v : String) : Nat :=
  (v.data.filter (fun c => c != '*')).length

/-- The number of bytes of the UTF-8 encoding of the characters of a pattern
other than `*`. -/
def literalBytes (v : String) : Nat :=
  ((v.data.filter (fun c => c != '*')).map Char.utf8Size).sum

/-- An entry whose `Table.Name` or `ParentTable.Name` equals `name`, in the
words of the specification of the surgeon. -/
def touchesName (name : String) (r : Relation) : Bool :=
  decide (r.Table.Name = name ∨ r.ParentTable.Name = name)

/-! ## Sample schemas -/

/-- The relation `posts -> users`. -/
def postsToUsers : Relation := relationBetween "posts" "users"

/-- The relation `user_secret -> users`. -/
def secretToUsers : Relation := relationBetween "user_secret" "users"

/-- Table `users`: the key column is the parent side of both relations and
the column `email` is labelled `pii`. -/
def usersTable : Table :=
  { Name := "users"
    Columns :=
      [{ Name := "id", Labels := [], ChildRelations := [],
         ParentRelations := [postsToUsers, secretToUsers] },
       { Name := "email", Labels := [⟨"pii"⟩], ChildRelations := [], ParentRelations := [] }]
    Labels := [] }

/-- Table `posts`, child of `users`. -/
def postsTable : Table :=
  { Name := "posts"
    Columns :=
      [{ Name := "user_id", Labels := [], ChildRelations := [postsToUsers],
         ParentRelations := [] }]
    Labels := [] }

/-- Table `user_secret`, child of `users`. -/
def secretTable : Table :=
  { Name := "user_secret"
    Columns :=
      [{ Name := "user_id", Labels := [], ChildRelations := [secretToUsers],
         ParentRelations := [] }]
    Labels := [] }

/-- Table `legacy_logs`, related to no other table. -/
def legacyTable : Table := bareTable "legacy_logs"

/-- A schema of four tables and two relations. -/
def demoSchema : Schema :=
  { Name := "demo"
    Tables := [usersTable, postsTable, secretTable, legacyTable]
    Relations := [postsToUsers, secretToUsers] }

/-- A schema whose only relation points to a table that is not in the
schema. -/
def danglingSchema : Schema :=
  { Name := "dangling"
    Tables := [bareTable "a"]
    Relations := [relationBetween "a" "ghost"] }

/-- A schema in which `user_a` is related to `user_secret`. -/
def rescueSchema : Schema :=
  { Name := "rescue"
    Tables := [bareTable "user_a", bareTable "user_secret"]
    Relations := [relationBetween "user_a" "user_secret"] }

/-- A name normaliser that qualifies a name without a dot by the schema
name `public`, as for a PostgreSQL database. -/
def qualifyName (n : String) : String :=
  if n.data.contains '.' then n else "public." ++ n

/-- The reference environment with names normalised by `qualifyName`. -/
def pgEnv (s : Schema) : Env where
  MatchSimple := MatchSimple
  NormalizeTableName := fun _ n => qualifyName n
  CollectTablesAndRelations := collectWithin s
  mapRange := fun m => m
  mapRange_perm := fun m => List.Perm.refl m

/-- A schema whose tables carry schema-qualified names. -/
def pgSchema : Schema :=
  { Name := "pg"
    Tables := [bareTable "public.legacy_orders", bareTable "public.users"]
    Relations := [] }

/-- An environment whose closure primitive fails on every call. -/
def failingEnv : Env where
  MatchSimple := MatchSimple
  NormalizeTableName := fun _ n => n
  CollectTablesAndRelations := fun _ _ _ => .error (Error.closure "closure failed")
  mapRange := fun m => m
  mapRange_perm := fun m => List.Perm.refl m

/-- A schema with a single table. -/
def singleSchema : Schema :=
  { Name := "single", Tables := [bareTable "a"], Relations := [] }

/-- A schema in which two tables carry the same name. -/
def duplicateSchema : Schema :=
  { Name := "duplicate", Tables := [bareTable "a", bareTable "a"], Relations := [] }

/-- A schema whose only table is `users`. -/
def usersSchema : Schema :=
  { Name := "users-only", Tables := [bareTable "users"], Relations := [] }

/-! ## Lemmas on maps -/

theorem mapHas_iff (m : TableMap) (k : String) :
    mapHas m k = true ↔ ∃ p ∈ m, p.1 = k := by
  simp [mapHas, List.any_eq_true]

theorem mapHas_eq_false_iff (m : TableMap) (k : String) :
    mapHas m k = false ↔ ∀ p ∈ m, p.1 ≠ k := by
  rw [← Bool.not_eq_true, mapHas_iff]
  constructor
  · intro h p hp hk
    exact h ⟨p, hp, hk⟩
  · rintro h ⟨p, hp, hk⟩
    exact h p hp hk

theorem mem_mapSet (m : TableMap) (k : String) (v : Table) (p : String × Table) :
    p ∈ mapSet m k v ↔ p = (k, v) ∨ (p ∈ m ∧ p.1 ≠ k) := by
  simp [mapSet, List.mem_filter]

theorem mapHas_mapSet (m : TableMap) (k : String) (v : Table) (k1 : String) :
    mapHas (mapSet m k v) k1 = true ↔ k1 = k ∨ mapHas m k1 = true := by
  simp only [mapHas_iff, mem_mapSet]
  constructor
  · rintro ⟨p, hp | ⟨hp, _⟩, rfl⟩
    · left; rw [hp]
    · right; exact ⟨p, hp, rfl⟩
  · rintro (rfl | ⟨p, hp, rfl⟩)
    · exact ⟨(k1, v), Or.inl rfl, rfl⟩
    · by_cases h : p.1 = k
      · exact ⟨(k, v), Or.inl rfl, h.symm⟩
      · exact ⟨p, Or.inr ⟨hp, h⟩, rfl⟩

theorem mapSet_of_not_has (m : TableMap) (k : String) (v : Table)
    (h : mapHas m k = false) : mapSet m k v = (k, v) :: m := by
  unfold mapSet
  congr 1
  rw [List.filter_eq_self]
  intro p hp
  simpa using (mapHas_eq_false_iff m k).1 h p hp

theorem keys_mapSet_nodup (m : TableMap) (k : String) (v : Table)
    (h : (m.map Prod.fst).Nodup) : ((mapSet m k v).map Prod.fst).Nodup := by
  unfold mapSet
  rw [List.map_cons, List.nodup_cons]
  constructor
  · simp [List.mem_map, List.mem_filter]
  · exact (h.sublist ((List.filter_sublist m).map Prod.fst))

theorem keyed_nil : Keyed [] := by
  intro p hp
  cases hp

theorem keyed_mapSet (m : TableMap) (t : Table) (h : Keyed m) :
    Keyed (mapSet m t.Name t) := by
  intro p hp
  rcases (mem_mapSet m t.Name t p).1 hp with rfl | ⟨hp, _⟩
  · rfl
  · exact h p hp

/-- One round of the inner closure loop. -/
theorem addClosure_cons (m : TableMap) (tt : Table) (ts : List Table) :
    addClosure m (tt :: ts) =
      addClosure (if mapHas m tt.Name then m else mapSet m tt.Name tt) ts := rfl

theorem addClosure_step (m : TableMap) (tt : Table) :
    ((if mapHas m tt.Name then m else mapSet m tt.Name tt) = m ∧ mapHas m tt.Name = true) ∨
    ((if mapHas m tt.Name then m else mapSet m tt.Name tt) = (tt.Name, tt) :: m ∧
      mapHas m tt.Name = false) := by
  cases h : mapHas m tt.Name
  · right
    exact ⟨by simp [mapSet_of_not_has m tt.Name tt h], rfl⟩
  · left
    exact ⟨by simp, rfl⟩

theorem addClosure_sub (ts : List Table) (m : TableMap) (p : String × Table) (hp : p ∈ m) :
    p ∈ addClosure m ts := by
  induction ts generalizing m with
  | nil => exact hp
  | cons tt ts ih =>
    rw [addClosure_cons]
    apply ih
    rcases addClosure_step m tt with ⟨h, _⟩ | ⟨h, _⟩ <;> rw [h]
    · exact hp
    · exact List.mem_cons_of_mem _ hp

theorem addClosure_mem (ts : List Table) (m : TableMap) (p : String × Table)
    (hp : p ∈ addClosure m ts) : p ∈ m ∨ ∃ tt ∈ ts, p = (tt.Name, tt) := by
  induction ts generalizing m with
  | nil => exact Or.inl hp
  | cons tt ts ih =>
    rw [addClosure_cons] at hp
    rcases ih _ hp with h | ⟨u, hu, rfl⟩
    · rcases addClosure_step m tt with ⟨e, _⟩ | ⟨e, _⟩ <;> rw [e] at h
      · exact Or.inl h
      · rcases List.mem_cons.1 h with rfl | h
        · exact Or.inr ⟨tt, List.mem_cons_self _ _, rfl⟩
        · exact Or.inl h
    · exact Or.inr ⟨u, List.mem_cons_of_mem _ hu, rfl⟩

theorem addClosure_has_of_has (ts : List Table) (m : TableMap) (k : String)
    (h : mapHas m k = true) : mapHas (addClosure m ts) k = true := by
  obtain ⟨p, hp, hk⟩ := (mapHas_iff m k).1 h
  exact (mapHas_iff _ k).2 ⟨p, addClosure_sub ts m p hp, hk⟩

theorem addClosure_has (ts : List Table) (m : TableMap) (u : Table) (hu : u ∈ ts) :
    mapHas (addClosure m ts) u.Name = true := by
  induction ts generalizing m with
  | nil => cases hu
  | cons tt ts ih =>
    rw [addClosure_cons]
    rcases List.mem_cons.1 hu with rfl | hu
    · apply addClosure_has_of_has
      rcases addClosure_step m u with ⟨e, h⟩ | ⟨e, _⟩ <;> rw [e]
      · exact h
      · exact (mapHas_iff _ _).2 ⟨(u.Name, u), List.mem_cons_self _ _, rfl⟩
    · exact ih _ hu

theorem addClosure_keyed (ts : List Table) (m : TableMap) (h : Keyed m) :
    Keyed (addClosure m ts) := by
  intro p hp
  rcases addClosure_mem ts m p hp with hp | ⟨u, _, rfl⟩
  · exact h p hp
  · rfl

theorem addClosure_nodup (ts : List Table) (m : TableMap) (h : (m.map Prod.fst).Nodup) :
    ((addClosure m ts).map Prod.fst).Nodup := by
  induction ts generalizing m with
  | nil => exact h
  | cons tt ts ih =>
    rw [addClosure_cons]
    apply ih
    rcases addClosure_step m tt with ⟨e, _⟩ | ⟨e, hn⟩ <;> rw [e]
    · exact h
    · rw [List.map_cons, List.nodup_cons]
      refine ⟨?_, h⟩
      intro hmem
      obtain ⟨p, hp, hk⟩ := List.mem_map.1 hmem
      exact (mapHas_eq_false_iff m tt.Name).1 hn p hp hk

/-! ## Lemmas on the closure loop -/

theorem collectLoop_cons_ok (env : Env) (opt : FilterOption) (t : Table) (rest : List Table)
    (m m1 : TableMap) :
    collectLoop env opt (t :: rest) m = .ok m1 ↔
      ∃ ts rs, env.CollectTablesAndRelations t opt.Distance true = .ok (ts, rs) ∧
        collectLoop env opt rest (addClosure (mapSet m t.Name t) ts) = .ok m1 := by
  rw [collectLoop]
  cases h : env.CollectTablesAndRelations t opt.Distance true with
  | error err => simp
  | ok r =>
    obtain ⟨ts, rs⟩ := r
    simp

theorem collectLoop_has_of_has (env : Env) (opt : FilterOption) (l : List Table)
    (m m1 : TableMap) (h : collectLoop env opt l m = .ok m1) (k : String)
    (hk : mapHas m k = true) : mapHas m1 k = true := by
  induction l generalizing m with
  | nil =>
    simp only [collectLoop, Except.ok.injEq] at h
    rw [← h]; exact hk
  | cons t rest ih =>
    obtain ⟨ts, rs, _, h2⟩ := (collectLoop_cons_ok env opt t rest m m1).1 h
    apply ih _ h2
    apply addClosure_has_of_has
    exact (mapHas_mapSet m t.Name t k).2 (Or.inr hk)

theorem collectLoop_has_table (env : Env) (opt : FilterOption) (l : List Table)
    (m m1 : TableMap) (h : collectLoop env opt l m = .ok m1) (t : Table) (ht : t ∈ l) :
    mapHas m1 t.Name = true := by
  induction l generalizing m with
  | nil => cases ht
  | cons t0 rest ih =>
    obtain ⟨ts, rs, _, h2⟩ := (collectLoop_cons_ok env opt t0 rest m m1).1 h
    rcases List.mem_cons.1 ht with rfl | ht
    · apply collectLoop_has_of_has env opt rest _ m1 h2
      apply addClosure_has_of_has
      exact (mapHas_mapSet m t.Name t t.Name).2 (Or.inl rfl)
    · exact ih _ h2 ht

theorem collectLoop_has_closure (env : Env) (opt : FilterOption) (l : List Table)
    (m m1 : TableMap) (h : collectLoop env opt l m = .ok m1) (t : Table) (ht : t ∈ l)
    (ts : List Table) (rs : List Relation)
    (hc : env.CollectTablesAndRelations t opt.Distance true = .ok (ts, rs))
    (u : Table) (hu : u ∈ ts) : mapHas m1 u.Name = true := by
  induction l generalizing m with
  | nil => cases ht
  | cons t0 rest ih =>
    obtain ⟨ts0, rs0, h1, h2⟩ := (collectLoop_cons_ok env opt t0 rest m m1).1 h
    rcases List.mem_cons.1 ht with rfl | ht
    · rw [hc] at h1
      simp only [Except.ok.injEq, Prod.mk.injEq] at h1
      obtain ⟨rfl, rfl⟩ := h1
      apply collectLoop_has_of_has env opt rest _ m1 h2
      exact addClosure_has _ _ u hu
    · exact ih _ h2 ht

theorem collectLoop_mem (env : Env) (opt : FilterOption) (l : List Table)
    (m m1 : TableMap) (h : collectLoop env opt l m = .ok m1) (p : String × Table)
    (hp : p ∈ m1) :
    p ∈ m ∨ p.2 ∈ l ∨
      ∃ t ∈ l, ∃ ts rs, env.CollectTablesAndRelations t opt.Distance true = .ok (ts, rs) ∧
        p.2 ∈ ts := by
  induction l generalizing m with
  | nil =>
    simp only [collectLoop, Except.ok.injEq] at h
    rw [← h] at hp; exact Or.inl hp
  | cons t0 rest ih =>
    obtain ⟨ts0, rs0, h1, h2⟩ := (collectLoop_cons_ok env opt t0 rest m m1).1 h
    rcases ih _ h2 with hp | hp | ⟨t, ht, ts, rs, hc, hu⟩
    · rcases addClosure_mem ts0 _ p hp with hp | ⟨u, hu, rfl⟩
      · rcases (mem_mapSet m t0.Name t0 p).1 hp with rfl | ⟨hp, _⟩
        · exact Or.inr (Or.inl (List.mem_cons_self _ _))
        · exact Or.inl hp
      · exact Or.inr (Or.inr ⟨t0, List.mem_cons_self _ _, ts0, rs0, h1, hu⟩)
    · exact Or.inr (Or.inl (List.mem_cons_of_mem _ hp))
    · exact Or.inr (Or.inr ⟨t, List.mem_cons_of_mem _ ht, ts, rs, hc, hu⟩)

theorem collectLoop_keyed (env : Env) (opt : FilterOption) (l : List Table)
    (m m1 : TableMap) (h : collectLoop env opt l m = .ok m1) (hm : Keyed m) : Keyed m1 := by
  induction l generalizing m with
  | nil =>
    simp only [collectLoop, Except.ok.injEq] at h
    rw [← h]; exact hm
  | cons t0 rest ih =>
    obtain ⟨ts0, rs0, _, h2⟩ := (collectLoop_cons_ok env opt t0 rest m m1).1 h
    exact ih _ h2 (addClosure_keyed _ _ (keyed_mapSet m t0 hm))

theorem collectLoop_nodup (env : Env) (opt : FilterOption) (l : List Table)
    (m m1 : TableMap) (h : collectLoop env opt l m = .ok m1)
    (hm : (m.map Prod.fst).Nodup) : (m1.map Prod.fst).Nodup := by
  induction l generalizing m with
  | nil =>
    simp only [collectLoop, Except.ok.injEq] at h
    rw [← h]; exact hm
  | cons t0 rest ih =>
    obtain ⟨ts0, rs0, _, h2⟩ := (collectLoop_cons_ok env opt t0 rest m m1).1 h
    exact ih _ h2 (addClosure_nodup _ _ (keys_mapSet_nodup m t0.Name t0 hm))

/-! ## Lemmas on the exclude map and on ranging over maps -/

theorem excludedFold_mem (im : TableMap) (tables : List Table) (acc : TableMap)
    (p : String × Table)
    (hp : p ∈ tables.foldl
      (fun m t => if mapHas im t.Name then m else mapSet m t.Name t) acc) :
    p ∈ acc ∨ (p.2 ∈ tables ∧ p.1 = p.2.Name ∧ mapHas im p.1 = false) := by
  induction tables generalizing acc with
  | nil => exact Or.inl hp
  | cons t rest ih =>
    rw [List.foldl_cons] at hp
    rcases ih _ hp with hp | ⟨h1, h2, h3⟩
    · cases hh : mapHas im t.Name
      · rw [hh] at hp
        rcases (mem_mapSet acc t.Name t p).1 hp with rfl | ⟨hp, _⟩
        · exact Or.inr ⟨List.mem_cons_self _ _, rfl, hh⟩
        · exact Or.inl hp
      · rw [hh] at hp
        exact Or.inl hp
    · exact Or.inr ⟨List.mem_cons_of_mem _ h1, h2, h3⟩

theorem excludedFold_has_of_has (im : TableMap) (tables : List Table) (acc : TableMap)
    (k : String) (hk : mapHas acc k = true) :
    mapHas (tables.foldl
      (fun m t => if mapHas im t.Name then m else mapSet m t.Name t) acc) k = true := by
  induction tables generalizing acc with
  | nil => exact hk
  | cons t rest ih =>
    rw [List.foldl_cons]
    apply ih
    cases hh : mapHas im t.Name
    · exact (mapHas_mapSet acc t.Name t k).2 (Or.inr hk)
    · exact hk

theorem excludedFold_has (im : TableMap) (tables : List Table) (acc : TableMap)
    (t : Table) (ht : t ∈ tables) (hn : mapHas im t.Name = false) :
    mapHas (tables.foldl
      (fun m t => if mapHas im t.Name then m else mapSet m t.Name t) acc) t.Name = true := by
  induction tables generalizing acc with
  | nil => cases ht
  | cons t0 rest ih =>
    rw [List.foldl_cons]
    rcases List.mem_cons.1 ht with rfl | ht
    · apply excludedFold_has_of_has
      rw [hn]
      exact (mapHas_mapSet acc t.Name t t.Name).2 (Or.inl rfl)
    · exact ih _ ht

theorem excludedMapOf_mem (im : TableMap) (tables : List Table) (p : String × Table)
    (hp : p ∈ excludedMapOf im tables) :
    p.2 ∈ tables ∧ p.1 = p.2.Name ∧ mapHas im p.1 = false := by
  rcases excludedFold_mem im tables [] p hp with h | h
  · cases h
  · exact h

theorem excludedMapOf_has (im : TableMap) (tables : List Table) (t : Table)
    (ht : t ∈ tables) (hn : mapHas im t.Name = false) :
    mapHas (excludedMapOf im tables) t.Name = true :=
  excludedFold_has im tables [] t ht hn

theorem mem_mapValues (env : Env) (m : TableMap) (t : Table) :
    t ∈ mapValues env m ↔ ∃ p ∈ m, p.2 = t := by
  unfold mapValues
  rw [List.mem_map]
  constructor
  · rintro ⟨p, hp, rfl⟩
    exact ⟨p, (env.mapRange_perm m).mem_iff.1 hp, rfl⟩
  · rintro ⟨p, hp, rfl⟩
    exact ⟨p, (env.mapRange_perm m).mem_iff.2 hp, rfl⟩

theorem length_mapValues (env : Env) (m : TableMap) :
    (mapValues env m).length = m.length := by
  unfold mapValues
  rw [List.length_map]
  exact (env.mapRange_perm m).length_eq

/-- Reading off a successful classification. -/
theorem separete_ok_iff (env : Env) (s : Schema) (opt : FilterOption)
    (inc exc : List Table) :
    SepareteTablesThatAreIncludedOrNot env s opt = .ok (inc, exc) ↔
      ∃ im, collectLoop env opt (tentativeIncludes env s opt) [] = .ok im ∧
        inc = mapValues env im ∧ exc = mapValues env (excludedMapOf im s.Tables) ∧
        s.Tables.length = inc.length + exc.length := by
  unfold SepareteTablesThatAreIncludedOrNot
  cases h : collectLoop env opt (tentativeIncludes env s opt) [] with
  | error err => simp
  | ok im =>
    simp only [Except.ok.injEq, exists_eq_left']
    by_cases hl : s.Tables.length =
        (mapValues env im).length + (mapValues env (excludedMapOf im s.Tables)).length
    · rw [if_neg (by simpa using hl)]
      simp only [Except.ok.injEq, Prod.mk.injEq]
      constructor
      · rintro ⟨rfl, rfl⟩
        exact ⟨rfl, rfl, hl⟩
      · rintro ⟨rfl, rfl, _⟩
        exact ⟨rfl, rfl⟩
    · rw [if_pos (by simpa using hl)]
      constructor
      · intro h0
        cases h0
      · rintro ⟨rfl, rfl, h3⟩
        exact absurd h3 hl

theorem collectLoop_persist (env : Env) (opt : FilterOption) (l : List Table)
    (m m1 : TableMap) (h : collectLoop env opt l m = .ok m1) (p : String × Table)
    (hp : p ∈ m) (hk : p.1 ∉ l.map Table.Name) : p ∈ m1 := by
  induction l generalizing m with
  | nil =>
    simp only [collectLoop, Except.ok.injEq] at h
    rw [← h]; exact hp
  | cons t0 rest ih =>
    obtain ⟨ts0, rs0, _, h2⟩ := (collectLoop_cons_ok env opt t0 rest m m1).1 h
    rw [List.map_cons, List.mem_cons, not_or] at hk
    apply ih _ h2 _ hk.2
    apply addClosure_sub
    exact (mem_mapSet m t0.Name t0 p).2 (Or.inr ⟨hp, hk.1⟩)

theorem collectLoop_mem_table (env : Env) (opt : FilterOption) (l : List Table)
    (m m1 : TableMap) (h : collectLoop env opt l m = .ok m1)
    (hn : (l.map Table.Name).Nodup) (t : Table) (ht : t ∈ l) : (t.Name, t) ∈ m1 := by
  induction l generalizing m with
  | nil => cases ht
  | cons t0 rest ih =>
    obtain ⟨ts0, rs0, _, h2⟩ := (collectLoop_cons_ok env opt t0 rest m m1).1 h
    rw [List.map_cons, List.nodup_cons] at hn
    rcases List.mem_cons.1 ht with rfl | ht
    · apply collectLoop_persist env opt rest _ m1 h2 _ _ hn.1
      apply addClosure_sub
      exact (mem_mapSet m t.Name t _).2 (Or.inl rfl)
    · exact ih _ h2 hn.2 ht

theorem excludedFold_nodup (im : TableMap) (tables : List Table) (acc : TableMap)
    (h : (acc.map Prod.fst).Nodup) :
    ((tables.foldl
      (fun m t => if mapHas im t.Name then m else mapSet m t.Name t) acc).map Prod.fst).Nodup := by
  induction tables generalizing acc with
  | nil => exact h
  | cons t rest ih =>
    rw [List.foldl_cons]
    apply ih
    cases hh : mapHas im t.Name
    · exact keys_mapSet_nodup acc t.Name t h
    · exact h

theorem excludedMapOf_nodup (im : TableMap) (tables : List Table) :
    ((excludedMapOf im tables).map Prod.fst).Nodup :=
  excludedFold_nodup im tables [] List.nodup_nil

theorem excludedMapOf_keyed (im : TableMap) (tables : List Table) :
    Keyed (excludedMapOf im tables) := fun p hp => (excludedMapOf_mem im tables p hp).2.1

theorem names_mapValues_perm (env : Env) (m : TableMap) (hk : Keyed m) :
    ((mapValues env m).map Table.Name).Perm (m.map Prod.fst) := by
  have h1 : ((mapValues env m).map Table.Name).Perm (m.map (fun p => p.2.Name)) := by
    unfold mapValues
    rw [List.map_map]
    exact (env.mapRange_perm m).map _
  have h2 : m.map (fun p => p.2.Name) = m.map Prod.fst := by
    apply List.map_congr_left
    intro p hp
    exact (hk p hp).symm
  rw [h2] at h1
  exact h1

theorem name_mem_mapValues (env : Env) (m : TableMap) (hk : Keyed m) (k : String) :
    (∃ u ∈ mapValues env m, u.Name = k) ↔ mapHas m k = true := by
  rw [mapHas_iff]
  constructor
  · rintro ⟨u, hu, rfl⟩
    obtain ⟨p, hp, rfl⟩ := (mem_mapValues env m u).1 hu
    exact ⟨p, hp, hk p hp⟩
  · rintro ⟨p, hp, rfl⟩
    exact ⟨p.2, (mem_mapValues env m p.2).2 ⟨p, hp, rfl⟩, (hk p hp).symm⟩

/-- The map `includedMap` of a successful classification. -/
theorem separete_includedMap (env : Env) (s : Schema) (opt : FilterOption)
    (inc exc : List Table)
    (h : SepareteTablesThatAreIncludedOrNot env s opt = .ok (inc, exc)) :
    ∃ im, collectLoop env opt (tentativeIncludes env s opt) [] = .ok im ∧
      Keyed im ∧ (im.map Prod.fst).Nodup ∧
      inc = mapValues env im ∧ exc = mapValues env (excludedMapOf im s.Tables) ∧
      s.Tables.length = inc.length + exc.length := by
  obtain ⟨im, h1, h2, h3, h4⟩ := (separete_ok_iff env s opt inc exc).1 h
  exact ⟨im, h1, collectLoop_keyed env opt _ [] im h1 keyed_nil,
    collectLoop_nodup env opt _ [] im h1 List.nodup_nil, h2, h3, h4⟩

theorem separete_names_disjoint (env : Env) (s : Schema) (opt : FilterOption)
    (inc exc : List Table)
    (h : SepareteTablesThatAreIncludedOrNot env s opt = .ok (inc, exc)) :
    ∀ a ∈ inc, ∀ b ∈ exc, a.Name ≠ b.Name := by
  obtain ⟨im, h1, hk, hn, rfl, rfl, hl⟩ := separete_includedMap env s opt inc exc h
  intro a ha b hb hab
  have h2 : mapHas im a.Name = true := (name_mem_mapValues env im hk a.Name).1 ⟨a, ha, rfl⟩
  obtain ⟨p, hp, rfl⟩ := (mem_mapValues env _ b).1 hb
  obtain ⟨_, h3, h4⟩ := excludedMapOf_mem im s.Tables p hp
  rw [h3, ← hab, h2] at h4
  cases h4

/-! ## Classification: partition, inclusion and closure -/

/-- C1: the include and exclude sets returned by
`SepareteTablesThatAreIncludedOrNot` together have as many elements as the
schema has tables, no table name occurs in both, and neither repeats a
name. -/
theorem separete_partition_disjoint (env : Env) (s : Schema) (opt : FilterOption)
    (inc exc : List Table)
    (h : SepareteTablesThatAreIncludedOrNot env s opt = .ok (inc, exc)) :
    inc.length + exc.length = s.Tables.length ∧
      (∀ a ∈ inc, ∀ b ∈ exc, a.Name ≠ b.Name) ∧
      (inc.map Table.Name).Nodup ∧ (exc.map Table.Name).Nodup := by
  obtain ⟨im, h1, hk, hn, rfl, rfl, hl⟩ := separete_includedMap env s opt inc exc h
  refine ⟨hl.symm, separete_names_disjoint env s opt _ _ h, ?_, ?_⟩
  · exact (names_mapValues_perm env im hk).nodup_iff.2 hn
  · exact (names_mapValues_perm env _ (excludedMapOf_keyed im s.Tables)).nodup_iff.2
      (excludedMapOf_nodup im s.Tables)

/-- C1, on the sample schema with `Include = ["user*"]`. -/
theorem separete_partition_disjoint_witness :
    SepareteTablesThatAreIncludedOrNot (refEnv demoSchema) demoSchema
        ⟨["user*"], [], [], 0⟩ = .ok ([secretTable, usersTable], [legacyTable, postsTable]) ∧
      ([secretTable, usersTable].length + [legacyTable, postsTable].length =
          demoSchema.Tables.length ∧
        (∀ a ∈ [secretTable, usersTable], ∀ b ∈ [legacyTable, postsTable], a.Name ≠ b.Name) ∧
        ([secretTable, usersTable].map Table.Name).Nodup ∧
        ([legacyTable, postsTable].map Table.Name).Nodup) :=
  ⟨rfl, separete_partition_disjoint (refEnv demoSchema) demoSchema ⟨["user*"], [], [], 0⟩
    [secretTable, usersTable] [legacyTable, postsTable] rfl⟩

theorem matchLength_snd_iff (env : Env) (l : List String) (e : String) :
    (matchLength env l e).2 = true ↔ ∃ v ∈ l, env.MatchSimple v e = true := by
  induction l with
  | nil => simp [matchLength]
  | cons v l ih =>
    rw [matchLength]
    cases hv : env.MatchSimple v e
    · simp [ih, hv]
    · simp [hv]

/-- The pattern list `i` is the Include list followed by its normalised
patterns, so a name matches it exactly when it matches an Include pattern or
the normalised form of one. -/
theorem include_match_iff (env : Env) (s : Schema) (opt : FilterOption) (name : String) :
    (matchLength env (includePatterns env s opt) name).2 = true ↔
      ∃ p ∈ opt.Include,
        env.MatchSimple p name = true ∨
          env.MatchSimple (env.NormalizeTableName s p) name = true := by
  rw [matchLength_snd_iff]
  simp only [includePatterns, NormalizeTableNames, List.mem_append, List.mem_map]
  constructor
  · rintro ⟨v, hv | ⟨p, hp, rfl⟩, hm⟩
    · exact ⟨v, hv, Or.inl hm⟩
    · exact ⟨p, hp, Or.inr hm⟩
  · rintro ⟨p, hp, hm | hm⟩
    · exact ⟨p, Or.inl hp, hm⟩
    · exact ⟨_, Or.inr ⟨p, hp, rfl⟩, hm⟩

/-- The pattern list `e` is the Exclude list followed by its normalised
patterns, so a name matches it exactly when it matches an Exclude pattern or
the normalised form of one. -/
theorem exclude_match_iff (env : Env) (s : Schema) (opt : FilterOption) (name : String) :
    (matchLength env (excludePatterns env s opt) name).2 = true ↔
      ∃ p ∈ opt.Exclude,
        env.MatchSimple p name = true ∨
          env.MatchSimple (env.NormalizeTableName s p) name = true := by
  rw [matchLength_snd_iff]
  simp only [excludePatterns, NormalizeTableNames, List.mem_append, List.mem_map]
  constructor
  · rintro ⟨v, hv | ⟨p, hp, rfl⟩, hm⟩
    · exact ⟨v, hv, Or.inl hm⟩
    · exact ⟨p, hp, Or.inr hm⟩
  · rintro ⟨p, hp, hm | hm⟩
    · exact ⟨p, Or.inl hp, hm⟩
    · exact ⟨_, Or.inr ⟨p, hp, rfl⟩, hm⟩

theorem tentative_of_include (env : Env) (s : Schema) (opt : FilterOption) (t : Table)
    (hmi : (matchLength env (includePatterns env s opt) t.Name).2 = true)
    (hle : (matchLength env (excludePatterns env s opt) t.Name).2 = false ∨
      (matchLength env (excludePatterns env s opt) t.Name).1 ≤
        (matchLength env (includePatterns env s opt) t.Name).1) :
    tentative env s opt t = true := by
  unfold tentative
  simp only [hmi, if_true]
  rcases hle with h | h
  · simp [h]
  · simp [Nat.not_lt.2 h]

theorem mem_tentativeIncludes (env : Env) (s : Schema) (opt : FilterOption) (t : Table) :
    t ∈ tentativeIncludes env s opt ↔ t ∈ s.Tables ∧ tentative env s opt t = true := by
  simp [tentativeIncludes, List.mem_filter]

theorem tentativeIncludes_nodup (env : Env) (s : Schema) (opt : FilterOption)
    (h : (s.Tables.map Table.Name).Nodup) :
    ((tentativeIncludes env s opt).map Table.Name).Nodup :=
  h.sublist ((List.filter_sublist s.Tables).map Table.Name)

/-- A tentatively included table is in the final include set: some element
of the set carries its name, and the table itself is an element when the
table names of the schema are pairwise distinct. -/
theorem tentative_included (env : Env) (s : Schema) (opt : FilterOption) (t : Table)
    (ht : t ∈ tentativeIncludes env s opt) (inc exc : List Table)
    (h : SepareteTablesThatAreIncludedOrNot env s opt = .ok (inc, exc)) :
    (∃ u ∈ inc, u.Name = t.Name) ∧ ((s.Tables.map Table.Name).Nodup → t ∈ inc) := by
  obtain ⟨im, h1, hk, _, rfl, rfl, _⟩ := separete_includedMap env s opt inc exc h
  constructor
  · exact (name_mem_mapValues env im hk t.Name).2
      (collectLoop_has_table env opt _ [] im h1 t ht)
  · intro hn
    exact (mem_mapValues env im t).2
      ⟨(t.Name, t), collectLoop_mem_table env opt _ [] im h1
        (tentativeIncludes_nodup env s opt hn) t ht, rfl⟩

/-- C2: a table of the schema whose name matches some Include pattern, raw
or normalised, is in the include set of a successful classification unless it
also matches an Exclude pattern with `li < le`; that is, whenever it matches
no Exclude pattern, raw or normalised, or `le ≤ li` (equal specificity
included), where `li` and `le` are the specificities `matchLength` returns
for the Include and Exclude lists, each followed by its normalised patterns.
The include set holds a table of that name, and the table itself when the
table names of the schema are pairwise distinct. -/
theorem include_match_included (env : Env) (s : Schema) (opt : FilterOption) (t : Table)
    (ht : t ∈ s.Tables)
    (hmi : ∃ p ∈ opt.Include,
      env.MatchSimple p t.Name = true ∨
        env.MatchSimple (env.NormalizeTableName s p) t.Name = true)
    (hle : (∀ p ∈ opt.Exclude,
        env.MatchSimple p t.Name = false ∧
          env.MatchSimple (env.NormalizeTableName s p) t.Name = false) ∨
      (matchLength env (opt.Exclude ++ opt.Exclude.map (env.NormalizeTableName s)) t.Name).1 ≤
        (matchLength env (opt.Include ++ opt.Include.map (env.NormalizeTableName s)) t.Name).1)
    (inc exc : List Table)
    (h : SepareteTablesThatAreIncludedOrNot env s opt = .ok (inc, exc)) :
    (∃ u ∈ inc, u.Name = t.Name) ∧ ((s.Tables.map Table.Name).Nodup → t ∈ inc) := by
  have h1 : (matchLength env (includePatterns env s opt) t.Name).2 = true :=
    (include_match_iff env s opt t.Name).2 hmi
  have h2 : (matchLength env (excludePatterns env s opt) t.Name).2 = false ∨
      (matchLength env (excludePatterns env s opt) t.Name).1 ≤
        (matchLength env (includePatterns env s opt) t.Name).1 := by
    rcases hle with hno | hspec
    · left
      rw [← Bool.not_eq_true, exclude_match_iff]
      rintro ⟨p, hp, hm | hm⟩
      · rw [(hno p hp).1] at hm
        cases hm
      · rw [(hno p hp).2] at hm
        cases hm
    · right
      exact hspec
  exact tentative_included env s opt t
    ((mem_tentativeIncludes env s opt t).2 ⟨ht, tentative_of_include env s opt t h1 h2⟩)
    inc exc h

/-- C2, on a schema with qualified table names and a normaliser that
qualifies patterns: `public.users` matches no raw Include pattern, matches the
normalised pattern `public.users` of specificity 12, matches the Exclude
pattern `public.user*` of specificity 11, and is included. -/
theorem include_match_included_witness :
    MatchSimple "users" (bareTable "public.users").Name = false ∧
    (pgEnv pgSchema).NormalizeTableName pgSchema "users" = "public.users" ∧
    matchLength (pgEnv pgSchema)
      (["users"] ++ ["users"].map ((pgEnv pgSchema).NormalizeTableName pgSchema))
      (bareTable "public.users").Name = (12, true) ∧
    matchLength (pgEnv pgSchema)
      (["public.user*"] ++ ["public.user*"].map ((pgEnv pgSchema).NormalizeTableName pgSchema))
      (bareTable "public.users").Name = (11, true) ∧
    SepareteTablesThatAreIncludedOrNot (pgEnv pgSchema) pgSchema
      ⟨["users"], ["public.user*"], [], 0⟩
      = .ok ([bareTable "public.users"], [bareTable "public.legacy_orders"]) ∧
    ((∃ u ∈ [bareTable "public.users"], u.Name = (bareTable "public.users").Name) ∧
      ((pgSchema.Tables.map Table.Name).Nodup →
        bareTable "public.users" ∈ [bareTable "public.users"])) :=
  ⟨by decide, by decide, by decide, by decide, rfl,
    include_match_included (pgEnv pgSchema) pgSchema ⟨["users"], ["public.user*"], [], 0⟩
      (bareTable "public.users") (by decide)
      ⟨"users", by decide, Or.inr (by decide)⟩
      (Or.inr (by decide))
      [bareTable "public.users"] [bareTable "public.legacy_orders"] rfl⟩

/-- C3: every table returned by the closure primitive for a tentatively
included table is, after a successful classification, in the include set and
not in the exclude set, whatever patterns or labels it matches. -/
theorem closure_included (env : Env) (s : Schema) (opt : FilterOption) (t : Table)
    (ht : t ∈ tentativeIncludes env s opt) (ts : List Table) (rs : List Relation)
    (hc : env.CollectTablesAndRelations t opt.Distance true = .ok (ts, rs))
    (u : Table) (hu : u ∈ ts) (inc exc : List Table)
    (h : SepareteTablesThatAreIncludedOrNot env s opt = .ok (inc, exc)) :
    (∃ v ∈ inc, v.Name = u.Name) ∧ ∀ v ∈ exc, v.Name ≠ u.Name := by
  obtain ⟨im, h1, hk, _, rfl, rfl, _⟩ := separete_includedMap env s opt inc exc h
  have hin : ∃ v ∈ mapValues env im, v.Name = u.Name :=
    (name_mem_mapValues env im hk u.Name).2
      (collectLoop_has_closure env opt _ [] im h1 t ht ts rs hc u hu)
  refine ⟨hin, ?_⟩
  obtain ⟨v, hv, hvu⟩ := hin
  intro w hw hwu
  exact separete_names_disjoint env s opt _ _ h v hv w hw (hvu.trans hwu.symm)

/-- C3, on the sample schema: `user_secret` matches the exclude pattern and no
include pattern, is tentatively excluded, and is rescued by the closure of
`users`. -/
theorem closure_included_witness :
    secretTable ∈ tentativeExcludes (refEnv demoSchema) demoSchema
        ⟨["users"], ["user_secret"], [], 1⟩ ∧
      ((∃ v ∈ [secretTable, postsTable, usersTable], v.Name = secretTable.Name) ∧
        ∀ v ∈ [legacyTable], v.Name ≠ secretTable.Name) :=
  ⟨by decide,
    closure_included (refEnv demoSchema) demoSchema ⟨["users"], ["user_secret"], [], 1⟩
      usersTable (by decide) [usersTable, postsTable, secretTable]
      [postsToUsers, secretToUsers] rfl secretTable (by decide)
      [secretTable, postsTable, usersTable] [legacyTable] rfl⟩

/-! ## The surgeon and the entry point -/

theorem touchesNone_iff (names : List String) (r : Relation) :
    touchesNone names r = true ↔ r.Table.Name ∉ names ∧ r.ParentTable.Name ∉ names := by
  induction names with
  | nil => simp [touchesNone]
  | cons n rest ih =>
    have h : touchesNone (n :: rest) r = (keepsRelation n r && touchesNone rest r) := rfl
    rw [h, Bool.and_eq_true, ih]
    simp only [keepsRelation, Bool.and_eq_true, bne_iff_ne, ne_eq, List.mem_cons, not_or]
    tauto

theorem notNamed_iff (names : List String) (t : Table) :
    notNamed names t = true ↔ t.Name ∉ names := by
  induction names with
  | nil => simp [notNamed]
  | cons n rest ih =>
    have h : notNamed (n :: rest) t = (t.Name != n && notNamed rest t) := rfl
    rw [h, Bool.and_eq_true, ih]
    simp only [bne_iff_ne, ne_eq, List.mem_cons, not_or]

theorem filter_filter_and {α : Type} (p q : α → Bool) (l : List α) :
    (l.filter q).filter p = l.filter (fun a => q a && p a) := by
  induction l with
  | nil => rfl
  | cons a l ih =>
    by_cases hq : q a <;> by_cases hp : p a <;> simp [List.filter_cons, hq, hp, ih]

theorem relations_prune_step (n : String) (rest : List String) (l : List Relation) :
    (l.filter (keepsRelation n)).filter (touchesNone rest) =
      l.filter (touchesNone (n :: rest)) :=
  filter_filter_and (touchesNone rest) (keepsRelation n) l

theorem column_prune_step (n : String) (rest : List String) (c : Column) :
    columnWithoutRelationsTo rest (pruneColumn n c) = columnWithoutRelationsTo (n :: rest) c := by
  simp only [columnWithoutRelationsTo, pruneColumn, relations_prune_step]

theorem table_prune_step (n : String) (rest : List String) (t : Table) :
    withoutRelationsTo rest (pruneTable n t) = withoutRelationsTo (n :: rest) t := by
  simp only [withoutRelationsTo, pruneTable, List.map_map]
  congr 1
  apply List.map_congr_left
  intro c _
  exact column_prune_step n rest c

theorem columnWithoutRelationsTo_nil (c : Column) : columnWithoutRelationsTo [] c = c := by
  cases c
  simp [columnWithoutRelationsTo, touchesNone]

theorem withoutRelationsTo_nil (t : Table) : withoutRelationsTo [] t = t := by
  cases t
  simp only [withoutRelationsTo, Table.mk.injEq, true_and, and_true]
  rw [List.map_congr_left (fun c _ => columnWithoutRelationsTo_nil c), List.map_id']

theorem tables_prune_step (n : String) (rest : List String) (l : List Table) :
    ((((l.map (pruneTable n)).filter (fun t => t.Name != n)).filter (notNamed rest)).map
        (withoutRelationsTo rest)) =
      (l.filter (notNamed (n :: rest))).map (withoutRelationsTo (n :: rest)) := by
  induction l with
  | nil => rfl
  | cons t l ih =>
    have h : notNamed (n :: rest) t = (t.Name != n && notNamed rest t) := rfl
    have h1 : (pruneTable n t).Name = t.Name := rfl
    have h2 : notNamed rest (pruneTable n t) = notNamed rest t := rfl
    rw [List.map_cons, List.filter_cons, List.filter_cons (p := notNamed (n :: rest)), h, h1]
    cases hn : (t.Name != n)
    · simpa using ih
    · cases hr : notNamed rest t
      · simp only [if_true, List.filter_cons, h2, hr, Bool.and_false]
        simpa using ih
      · simp only [if_true, List.filter_cons, h2, hr, Bool.and_true, List.map_cons,
          table_prune_step]
        rw [ih]

/-- What the loop of `Filter` leaves of a schema: it never fails, keeps the
tables that carry none of the excluded names, each with its relation lists
pruned, and keeps the relations that touch none of the excluded names. -/
theorem filterLoop_eq (exs : List Table) (s : Schema) :
    filterLoop exs s =
      (none,
        { s with
          Tables := (s.Tables.filter (notNamed (exs.map Table.Name))).map
            (withoutRelationsTo (exs.map Table.Name))
          Relations := s.Relations.filter (touchesNone (exs.map Table.Name)) }) := by
  induction exs generalizing s with
  | nil =>
    have h1 : s.Tables.filter (notNamed []) = s.Tables :=
      List.filter_eq_self.2 (fun _ _ => rfl)
    have h2 : s.Relations.filter (touchesNone []) = s.Relations :=
      List.filter_eq_self.2 (fun _ _ => rfl)
    simp only [filterLoop, List.map_nil, h1, h2]
    rw [List.map_congr_left (fun t _ => withoutRelationsTo_nil t), List.map_id']
  | cons x rest ih =>
    have h : filterLoop (x :: rest) s = filterLoop rest (excludeTableFromSchema x.Name s).2 := rfl
    rw [h, ih]
    simp only [excludeTableFromSchema, List.map_cons, tables_prune_step, relations_prune_step]

theorem withoutRelationsTo_name (names : List String) (t : Table) :
    (withoutRelationsTo names t).Name = t.Name := rfl

/-- A schema table is in exactly one of the two sets of a successful
classification. -/
theorem name_included_iff_not_excluded (env : Env) (s : Schema) (opt : FilterOption)
    (inc exc : List Table)
    (h : SepareteTablesThatAreIncludedOrNot env s opt = .ok (inc, exc))
    (t : Table) (ht : t ∈ s.Tables) :
    t.Name ∈ inc.map Table.Name ↔ t.Name ∉ exc.map Table.Name := by
  have hd := separete_names_disjoint env s opt inc exc h
  obtain ⟨im, h1, hk, _, rfl, rfl, _⟩ := separete_includedMap env s opt inc exc h
  constructor
  · intro hi he
    obtain ⟨a, ha, hat⟩ := List.mem_map.1 hi
    obtain ⟨b, hb, hbt⟩ := List.mem_map.1 he
    exact hd a ha b hb (hat.trans hbt.symm)
  · intro he
    cases hh : mapHas im t.Name
    · exfalso
      apply he
      obtain ⟨u, hu, hut⟩ := (name_mem_mapValues env _ (excludedMapOf_keyed im s.Tables) t.Name).2
        (excludedMapOf_has im s.Tables t ht hh)
      exact List.mem_map.2 ⟨u, hu, hut⟩
    · obtain ⟨u, hu, hut⟩ := (name_mem_mapValues env im hk t.Name).2 hh
      exact List.mem_map.2 ⟨u, hu, hut⟩

/-- Reading off a successful `Filter`. -/
theorem filter_ok (env : Env) (s : Schema) (opt : FilterOption)
    (h : (Filter env s opt).1 = none) :
    ∃ inc exc, SepareteTablesThatAreIncludedOrNot env s opt = .ok (inc, exc) ∧
      (Filter env s opt).2 =
        { s with
          Tables := (s.Tables.filter (notNamed (exc.map Table.Name))).map
            (withoutRelationsTo (exc.map Table.Name))
          Relations := s.Relations.filter (touchesNone (exc.map Table.Name)) } := by
  unfold Filter at h ⊢
  cases hs : SepareteTablesThatAreIncludedOrNot env s opt with
  | error err =>
    rw [hs] at h
    cases h
  | ok r =>
    obtain ⟨inc, exc⟩ := r
    refine ⟨inc, exc, rfl, ?_⟩
    simp only [filterLoop_eq]

/-- C4: when `Filter` succeeds, the table list of the schema is the sub-list
of the original table list made of the tables whose names are in the include
set of the classification of the original schema, in their original order;
each kept table is the original one with the relation lists of its columns
pruned of the excluded names. -/
theorem filter_tables_are_included (env : Env) (s : Schema) (opt : FilterOption)
    (h : (Filter env s opt).1 = none) :
    ∃ inc exc, SepareteTablesThatAreIncludedOrNot env s opt = .ok (inc, exc) ∧
      (Filter env s opt).2.Tables =
        (s.Tables.filter (fun t => decide (t.Name ∈ inc.map Table.Name))).map
          (withoutRelationsTo (exc.map Table.Name)) ∧
      (Filter env s opt).2.Tables.map Table.Name =
        (s.Tables.filter (fun t => decide (t.Name ∈ inc.map Table.Name))).map Table.Name := by
  obtain ⟨inc, exc, hs, hf⟩ := filter_ok env s opt h
  have hp : s.Tables.filter (notNamed (exc.map Table.Name)) =
      s.Tables.filter (fun t => decide (t.Name ∈ inc.map Table.Name)) := by
    apply List.filter_congr
    intro t ht
    have h1 := name_included_iff_not_excluded env s opt inc exc hs t ht
    have h2 := notNamed_iff (exc.map Table.Name) t
    by_cases hi : t.Name ∈ inc.map Table.Name
    · rw [decide_eq_true hi]
      exact h2.2 (h1.1 hi)
    · rw [decide_eq_false hi]
      rw [← Bool.not_eq_true, h2, ← h1]
      exact hi
  refine ⟨inc, exc, hs, ?_, ?_⟩
  · rw [hf, hp]
  · rw [hf, hp, List.map_map]
    rfl

/-- C4, on the sample schema with `Include = ["user*"]` and
`Exclude = ["user_secret"]`: only `users` is kept. -/
theorem filter_tables_are_included_witness :
    (Filter (refEnv demoSchema) demoSchema ⟨["user*"], ["user_secret"], [], 0⟩).2.Tables.map
        Table.Name = ["users"] ∧
    ∃ inc exc, SepareteTablesThatAreIncludedOrNot (refEnv demoSchema) demoSchema
        ⟨["user*"], ["user_secret"], [], 0⟩ = .ok (inc, exc) ∧
      (Filter (refEnv demoSchema) demoSchema ⟨["user*"], ["user_secret"], [], 0⟩).2.Tables =
        (demoSchema.Tables.filter (fun t => decide (t.Name ∈ inc.map Table.Name))).map
          (withoutRelationsTo (exc.map Table.Name)) ∧
      (Filter (refEnv demoSchema) demoSchema ⟨["user*"], ["user_secret"], [], 0⟩).2.Tables.map
          Table.Name =
        (demoSchema.Tables.filter (fun t => decide (t.Name ∈ inc.map Table.Name))).map
          Table.Name :=
  ⟨rfl, filter_tables_are_included (refEnv demoSchema) demoSchema
    ⟨["user*"], ["user_secret"], [], 0⟩ rfl⟩

/-- C6: after `excludeTableFromSchema(name, s)` no table of the schema is
named `name`, no relation of the schema has `name` as an endpoint, and no
entry of a relation list of a column of a remaining table has `name` as an
endpoint. -/
theorem exclude_removes_every_reference (name : String) (s : Schema) :
    (∀ t ∈ (excludeTableFromSchema name s).2.Tables, t.Name ≠ name) ∧
    (∀ r ∈ (excludeTableFromSchema name s).2.Relations,
      r.Table.Name ≠ name ∧ r.ParentTable.Name ≠ name) ∧
    (∀ t ∈ (excludeTableFromSchema name s).2.Tables, ∀ c ∈ t.Columns,
      (∀ r ∈ c.ChildRelations, r.Table.Name ≠ name ∧ r.ParentTable.Name ≠ name) ∧
      (∀ r ∈ c.ParentRelations, r.Table.Name ≠ name ∧ r.ParentTable.Name ≠ name)) := by
  have hk : ∀ (l : List Relation), ∀ r ∈ l.filter (keepsRelation name),
      r.Table.Name ≠ name ∧ r.ParentTable.Name ≠ name := by
    intro l r hr
    have h := (List.mem_filter.1 hr).2
    simpa [keepsRelation] using h
  refine ⟨?_, ?_, ?_⟩
  · intro t ht
    have h := (List.mem_filter.1 ht).2
    simpa using h
  · intro r hr
    exact hk s.Relations r hr
  · intro t ht c hc
    obtain ⟨t0, _, rfl⟩ := List.mem_map.1 (List.mem_filter.1 ht).1
    obtain ⟨c0, _, rfl⟩ := List.mem_map.1 hc
    exact ⟨fun r hr => hk c0.ChildRelations r hr, fun r hr => hk c0.ParentRelations r hr⟩

theorem noEndpoint_of_touchesNone (names : List String) (l : List Relation) (name : String)
    (hn : name ∈ names) : NoEndpoint name (l.filter (touchesNone names)) := by
  intro r hr
  have h := (touchesNone_iff names r).1 (List.mem_filter.1 hr).2
  constructor
  · intro he; exact h.1 (he ▸ hn)
  · intro he; exact h.2 (he ▸ hn)

/-- C5, as amended: after a successful `Filter`, no relation of the schema
and no entry of a relation list of a column of a remaining table has an
endpoint naming a removed table; and if before the call every relation of the
schema had both endpoints naming tables of the schema, the same holds after
it. -/
theorem filter_leaves_no_reference_to_removed (env : Env) (s : Schema) (opt : FilterOption)
    (h : (Filter env s opt).1 = none) :
    (∀ x ∈ s.Tables, x.Name ∉ (Filter env s opt).2.Tables.map Table.Name →
      NoReferenceTo (Filter env s opt).2 x.Name) ∧
    (RelationsClosed s → RelationsClosed (Filter env s opt).2) := by
  obtain ⟨inc, exc, _, hf⟩ := filter_ok env s opt h
  rw [hf]
  have hkeep : ∀ t ∈ s.Tables, t.Name ∉ exc.map Table.Name →
      t.Name ∈ ((s.Tables.filter (notNamed (exc.map Table.Name))).map
        (withoutRelationsTo (exc.map Table.Name))).map Table.Name := by
    intro t ht hne
    rw [List.map_map]
    exact List.mem_map.2 ⟨t, List.mem_filter.2 ⟨ht, (notNamed_iff _ t).2 hne⟩, rfl⟩
  constructor
  · intro x hx hgone
    have hex : x.Name ∈ exc.map Table.Name := by
      by_contra hne
      exact hgone (hkeep x hx hne)
    refine ⟨noEndpoint_of_touchesNone _ _ _ hex, ?_⟩
    intro t ht c hc
    obtain ⟨t0, _, rfl⟩ := List.mem_map.1 ht
    obtain ⟨c0, _, rfl⟩ := List.mem_map.1 hc
    exact ⟨noEndpoint_of_touchesNone _ _ _ hex, noEndpoint_of_touchesNone _ _ _ hex⟩
  · intro hcl r hr
    obtain ⟨hr0, hrt⟩ := List.mem_filter.1 hr
    obtain ⟨h1, h2⟩ := hcl r hr0
    obtain ⟨hn1, hn2⟩ := (touchesNone_iff _ r).1 hrt
    obtain ⟨t1, ht1, e1⟩ := List.mem_map.1 h1
    obtain ⟨t2, ht2, e2⟩ := List.mem_map.1 h2
    constructor
    · rw [← e1]; exact hkeep t1 ht1 (e1 ▸ hn1)
    · rw [← e2]; exact hkeep t2 ht2 (e2 ▸ hn2)

/-- C5 as amended, on the sample schema with `Include = ["user*"]` and
`Exclude = ["user_secret"]`. -/
theorem filter_leaves_no_reference_to_removed_witness :
    (Filter (refEnv demoSchema) demoSchema ⟨["user*"], ["user_secret"], [], 0⟩).1 = none ∧
    (∀ x ∈ demoSchema.Tables,
        x.Name ∉ (Filter (refEnv demoSchema) demoSchema
          ⟨["user*"], ["user_secret"], [], 0⟩).2.Tables.map Table.Name →
        NoReferenceTo (Filter (refEnv demoSchema) demoSchema
          ⟨["user*"], ["user_secret"], [], 0⟩).2 x.Name) ∧
    RelationsClosed demoSchema ∧
    RelationsClosed (Filter (refEnv demoSchema) demoSchema
      ⟨["user*"], ["user_secret"], [], 0⟩).2 := by
  have h := filter_leaves_no_reference_to_removed (refEnv demoSchema) demoSchema
    ⟨["user*"], ["user_secret"], [], 0⟩ rfl
  have hc : RelationsClosed demoSchema := by
    unfold RelationsClosed
    decide
  exact ⟨rfl, h.1, hc, h.2 hc⟩

/-- C5 fails as stated: `Filter` succeeds on a schema whose relation points
to a table outside the schema, removes nothing, and the relation still names
the absent table `ghost`. -/
theorem filter_dangling_relation_counterexample :
    (Filter (refEnv danglingSchema) danglingSchema ⟨[], [], [], 0⟩).1 = none ∧
    (Filter (refEnv danglingSchema) danglingSchema ⟨[], [], [], 0⟩).2.Tables.map Table.Name
      = ["a"] ∧
    relationBetween "a" "ghost" ∈
      (Filter (refEnv danglingSchema) danglingSchema ⟨[], [], [], 0⟩).2.Relations ∧
    ¬ RelationsClosed (Filter (refEnv danglingSchema) danglingSchema ⟨[], [], [], 0⟩).2 := by
  refine ⟨rfl, rfl, by decide, ?_⟩
  intro hcl
  have h := (hcl (relationBetween "a" "ghost") (by decide)).2
  revert h
  decide

/-! ## Classification: the decision rule on particular filters -/

/-- A key of `includedMap` is the name of a tentatively included table or of
a table returned by the closure of one. -/
theorem includedMap_key_cases (env : Env) (s : Schema) (opt : FilterOption) (im : TableMap)
    (h : collectLoop env opt (tentativeIncludes env s opt) [] = .ok im)
    (p : String × Table) (hp : p ∈ im) :
    p.1 = p.2.Name ∧
      (p.2 ∈ tentativeIncludes env s opt ∨
        ∃ t ∈ tentativeIncludes env s opt, ∃ ts rs,
          env.CollectTablesAndRelations t opt.Distance true = .ok (ts, rs) ∧ p.2 ∈ ts) := by
  refine ⟨collectLoop_keyed env opt _ [] im h keyed_nil p hp, ?_⟩
  rcases collectLoop_mem env opt _ [] im h p hp with h0 | h1 | h2
  · cases h0
  · exact Or.inl h1
  · exact Or.inr h2

/-- A schema table whose name is neither that of a tentatively included
table nor that of a table returned by a closure is in the exclude set and
not in the include set. -/
theorem excluded_of_unreached (env : Env) (s : Schema) (opt : FilterOption)
    (inc exc : List Table)
    (h : SepareteTablesThatAreIncludedOrNot env s opt = .ok (inc, exc))
    (t : Table) (ht : t ∈ s.Tables)
    (h1 : ∀ u ∈ tentativeIncludes env s opt, u.Name ≠ t.Name)
    (h2 : ∀ u ∈ tentativeIncludes env s opt, ∀ ts rs,
      env.CollectTablesAndRelations u opt.Distance true = .ok (ts, rs) →
        ∀ v ∈ ts, v.Name ≠ t.Name) :
    (∃ v ∈ exc, v.Name = t.Name) ∧ ∀ v ∈ inc, v.Name ≠ t.Name := by
  obtain ⟨im, hc, hk, _, rfl, rfl, _⟩ := separete_includedMap env s opt inc exc h
  have hno : mapHas im t.Name = false := by
    rw [mapHas_eq_false_iff]
    intro p hp hpt
    obtain ⟨hkey, hcase⟩ := includedMap_key_cases env s opt im hc p hp
    rcases hcase with hi | ⟨u, hu, ts, rs, hcu, hv⟩
    · exact h1 p.2 hi (hkey ▸ hpt)
    · exact h2 u hu ts rs hcu p.2 hv (hkey ▸ hpt)
  constructor
  · exact (name_mem_mapValues env _ (excludedMapOf_keyed im s.Tables) t.Name).2
      (excludedMapOf_has im s.Tables t ht hno)
  · intro v hv hvt
    have := (name_mem_mapValues env im hk t.Name).1 ⟨v, hv, hvt⟩
    rw [hno] at this
    cases this

theorem matchLength_head (env : Env) (v : String) (l : List String) (e : String)
    (h : env.MatchSimple v e = true) :
    matchLength env (v :: l) e = (len (replaceAllStar v), true) := by
  simp [matchLength, h]

/-- C7, as amended: with `Include = ["user_*"]`, `Exclude = ["user_secret"]`
and no label pattern, a table named `user_secret` has specificities 5 and 11
and is tentatively excluded; a successful classification puts it in the
exclude set and not in the include set provided no closure of a tentatively
included table returns a table of that name. -/
theorem user_secret_excluded (env : Env) (s : Schema) (d : Int)
    (hm1 : env.MatchSimple "user_*" "user_secret" = true)
    (hm2 : env.MatchSimple "user_secret" "user_secret" = true)
    (t : Table) (ht : t ∈ s.Tables) (hn : t.Name = "user_secret") :
    matchLength env (includePatterns env s ⟨["user_*"], ["user_secret"], [], d⟩) t.Name
      = (5, true) ∧
    matchLength env (excludePatterns env s ⟨["user_*"], ["user_secret"], [], d⟩) t.Name
      = (11, true) ∧
    t ∈ tentativeExcludes env s ⟨["user_*"], ["user_secret"], [], d⟩ ∧
    ∀ inc exc,
      SepareteTablesThatAreIncludedOrNot env s ⟨["user_*"], ["user_secret"], [], d⟩
        = .ok (inc, exc) →
      (∀ u ∈ tentativeIncludes env s ⟨["user_*"], ["user_secret"], [], d⟩, ∀ ts rs,
        env.CollectTablesAndRelations u d true = .ok (ts, rs) →
          ∀ v ∈ ts, v.Name ≠ "user_secret") →
      (∃ v ∈ exc, v.Name = "user_secret") ∧ ∀ v ∈ inc, v.Name ≠ "user_secret" := by
  have hi : ∀ u : Table, u.Name = "user_secret" →
      matchLength env (includePatterns env s ⟨["user_*"], ["user_secret"], [], d⟩) u.Name
        = (5, true) := by
    intro u hu
    rw [hu]
    exact matchLength_head env "user_*" _ "user_secret" hm1
  have he : ∀ u : Table, u.Name = "user_secret" →
      matchLength env (excludePatterns env s ⟨["user_*"], ["user_secret"], [], d⟩) u.Name
        = (11, true) := by
    intro u hu
    rw [hu]
    exact matchLength_head env "user_secret" _ "user_secret" hm2
  have hten : ∀ u : Table, u.Name = "user_secret" →
      tentative env s ⟨["user_*"], ["user_secret"], [], d⟩ u = false := by
    intro u hu
    unfold tentative
    simp [hi u hu, he u hu]
  refine ⟨hi t hn, he t hn, ?_, ?_⟩
  · simp [tentativeExcludes, List.mem_filter, ht, hten t hn]
  · intro inc exc hs hcl
    rw [← hn]
    apply excluded_of_unreached env s _ inc exc hs t ht
    · intro u hu hut
      have h1 := ((mem_tentativeIncludes env s _ u).1 hu).2
      rw [hten u (hut.trans hn)] at h1
      cases h1
    · intro u hu ts rs hcu v hv
      rw [hn]
      exact hcl u hu ts rs hcu v hv

/-- C7 as amended, on the schema of `user_a` and `user_secret` at distance 0:
`user_secret` is excluded and `user_a` included. -/
theorem user_secret_excluded_witness :
    matchLength (refEnv rescueSchema)
      (includePatterns (refEnv rescueSchema) rescueSchema ⟨["user_*"], ["user_secret"], [], 0⟩)
      (bareTable "user_secret").Name = (5, true) ∧
    matchLength (refEnv rescueSchema)
      (excludePatterns (refEnv rescueSchema) rescueSchema ⟨["user_*"], ["user_secret"], [], 0⟩)
      (bareTable "user_secret").Name = (11, true) ∧
    bareTable "user_secret" ∈ tentativeExcludes (refEnv rescueSchema) rescueSchema
      ⟨["user_*"], ["user_secret"], [], 0⟩ ∧
    SepareteTablesThatAreIncludedOrNot (refEnv rescueSchema) rescueSchema
      ⟨["user_*"], ["user_secret"], [], 0⟩
      = .ok ([bareTable "user_a"], [bareTable "user_secret"]) ∧
    ((∃ v ∈ [bareTable "user_secret"], v.Name = "user_secret") ∧
      ∀ v ∈ [bareTable "user_a"], v.Name ≠ "user_secret") := by
  have h := user_secret_excluded (refEnv rescueSchema) rescueSchema 0 (by decide) (by decide)
    (bareTable "user_secret") (by decide) rfl
  refine ⟨h.1, h.2.1, h.2.2.1, rfl, h.2.2.2 [bareTable "user_a"] [bareTable "user_secret"] rfl ?_⟩
  intro u hu ts rs hc v hv
  have hu1 : u ∈ [bareTable "user_a"] := hu
  rw [List.mem_singleton] at hu1
  subst hu1
  have hc1 : (Except.ok ([bareTable "user_a"], []) :
      Except Error (List Table × List Relation)) = .ok (ts, rs) := hc
  simp only [Except.ok.injEq, Prod.mk.injEq] at hc1
  rw [← hc1.1, List.mem_singleton] at hv
  rw [hv]
  decide

/-- C7 fails as stated: at distance 1 the table `user_secret`, tentatively
excluded, is returned by the closure of `user_a` and ends in the include
set; the exclude set is empty. -/
theorem user_secret_rescued_counterexample :
    bareTable "user_secret" ∈ rescueSchema.Tables ∧
    bareTable "user_secret" ∈ tentativeExcludes (refEnv rescueSchema) rescueSchema
      ⟨["user_*"], ["user_secret"], [], 1⟩ ∧
    SepareteTablesThatAreIncludedOrNot (refEnv rescueSchema) rescueSchema
      ⟨["user_*"], ["user_secret"], [], 1⟩
      = .ok ([bareTable "user_secret", bareTable "user_a"], []) :=
  ⟨by decide, by decide, rfl⟩

theorem matchLength_nil (env : Env) (e : String) : matchLength env [] e = (0, false) := rfl

theorem matchLabels_nil (env : Env) (l : Labels) : matchLabels env [] l = false := by
  simp [matchLabels]

theorem matchTableOrColumnLabels_nil (env : Env) (t : Table) :
    matchTableOrColumnLabels env [] t = false := by
  simp [matchTableOrColumnLabels, matchLabels_nil]

theorem includePatterns_nil (env : Env) (s : Schema) (opt : FilterOption)
    (h : opt.Include = []) : includePatterns env s opt = [] := by
  simp [includePatterns, NormalizeTableNames, h]

/-- With neither Include nor IncludeLabels patterns, the tentative decision
is the negation of the Exclude match. -/
theorem tentative_default (env : Env) (s : Schema) (opt : FilterOption) (t : Table)
    (hi : opt.Include = []) (hl : opt.IncludeLabels = []) :
    tentative env s opt t = !(matchLength env (excludePatterns env s opt) t.Name).2 := by
  unfold tentative
  rw [includePatterns_nil env s opt hi, hl, matchTableOrColumnLabels_nil, hi]
  cases hme : (matchLength env (excludePatterns env s opt) t.Name).2 <;>
    simp [matchLength, hme]

/-- C8, as amended: with `Include = []`, `Exclude = ["legacy_*"]` and
`IncludeLabels = []`, every table of the schema whose name matches neither
`legacy_*` nor the normalised form of that pattern is in the include set of a
successful classification. -/
theorem default_include_unless_excluded (env : Env) (s : Schema) (d : Int) (t : Table)
    (ht : t ∈ s.Tables)
    (h1 : env.MatchSimple "legacy_*" t.Name = false)
    (h2 : env.MatchSimple (env.NormalizeTableName s "legacy_*") t.Name = false)
    (inc exc : List Table)
    (h : SepareteTablesThatAreIncludedOrNot env s ⟨[], ["legacy_*"], [], d⟩ = .ok (inc, exc)) :
    (∃ u ∈ inc, u.Name = t.Name) ∧ ((s.Tables.map Table.Name).Nodup → t ∈ inc) := by
  apply tentative_included env s _ t _ inc exc h
  rw [mem_tentativeIncludes]
  refine ⟨ht, ?_⟩
  rw [tentative_default env s _ t rfl rfl]
  simp [excludePatterns, NormalizeTableNames, matchLength, h1, h2]

/-- C8 as amended, on the sample schema: `users` is included. -/
theorem default_include_unless_excluded_witness :
    SepareteTablesThatAreIncludedOrNot (refEnv demoSchema) demoSchema
      ⟨[], ["legacy_*"], [], 0⟩ = .ok ([secretTable, postsTable, usersTable], [legacyTable]) ∧
    ((∃ u ∈ [secretTable, postsTable, usersTable], u.Name = usersTable.Name) ∧
      ((demoSchema.Tables.map Table.Name).Nodup →
        usersTable ∈ [secretTable, postsTable, usersTable])) :=
  ⟨rfl, default_include_unless_excluded (refEnv demoSchema) demoSchema 0 usersTable
    (by decide) (by decide) (by decide) [secretTable, postsTable, usersTable] [legacyTable] rfl⟩

/-- C8 fails as stated: when names are normalised by qualifying them with
`public`, the table `public.legacy_orders` does not match `legacy_*`, yet it
matches the normalised pattern `public.legacy_*` and is excluded. -/
theorem default_include_normalised_counterexample :
    bareTable "public.legacy_orders" ∈ pgSchema.Tables ∧
    MatchSimple "legacy_*" (bareTable "public.legacy_orders").Name = false ∧
    excludePatterns (pgEnv pgSchema) pgSchema ⟨[], ["legacy_*"], [], 0⟩
      = ["legacy_*", "public.legacy_*"] ∧
    SepareteTablesThatAreIncludedOrNot (pgEnv pgSchema) pgSchema ⟨[], ["legacy_*"], [], 0⟩
      = .ok ([bareTable "public.users"], [bareTable "public.legacy_orders"]) :=
  ⟨by decide, by decide, by decide, rfl⟩

/-- With a positive filter, a tentatively included table matches an Include
pattern or carries a matching label. -/
theorem tentative_positive (env : Env) (s : Schema) (opt : FilterOption) (t : Table)
    (hpos : opt.Include ≠ [] ∨ opt.IncludeLabels ≠ [])
    (h : tentative env s opt t = true) :
    (matchLength env (includePatterns env s opt) t.Name).2 = true ∨
      matchTableOrColumnLabels env opt.IncludeLabels t = true := by
  cases hmi : (matchLength env (includePatterns env s opt) t.Name).2
  · cases hml : matchTableOrColumnLabels env opt.IncludeLabels t
    · exfalso
      unfold tentative at h
      simp only [hmi, hml] at h
      simp at h
      rcases hpos with hp | hp
      · exact hp h.1.1
      · exact hp h.1.2
    · exact Or.inr rfl
  · exact Or.inl rfl

/-- Every element of the include set is a tentatively included table of the
schema or a table returned by the closure of one. -/
theorem included_cases (env : Env) (s : Schema) (opt : FilterOption) (inc exc : List Table)
    (h : SepareteTablesThatAreIncludedOrNot env s opt = .ok (inc, exc))
    (u : Table) (hu : u ∈ inc) :
    u ∈ tentativeIncludes env s opt ∨
      ∃ t ∈ tentativeIncludes env s opt, ∃ ts rs,
        env.CollectTablesAndRelations t opt.Distance true = .ok (ts, rs) ∧ u ∈ ts := by
  obtain ⟨im, hc, _, _, rfl, rfl, _⟩ := separete_includedMap env s opt inc exc h
  obtain ⟨p, hp, rfl⟩ := (mem_mapValues env im u).1 hu
  exact (includedMap_key_cases env s opt im hc p hp).2

/-- C9: under a positive filter (Include or IncludeLabels non-empty) every
table in the include set of a successful classification is a schema table
that matches an Include pattern or carries a matching label (on itself or on
a column), or is returned by the closure primitive for a tentatively included
table.  Every schema table not in the include set is in the exclude set; in
particular so is every schema table that matches no Include pattern, whose
name is carried by no table with a matching label, and whose name is returned
by no such closure.  With `Include = []` every table in the include set
carries a matching label or is returned by such a closure. -/
theorem positive_filter_include_set (env : Env) (s : Schema) (opt : FilterOption)
    (hpos : opt.Include ≠ [] ∨ opt.IncludeLabels ≠ [])
    (inc exc : List Table)
    (h : SepareteTablesThatAreIncludedOrNot env s opt = .ok (inc, exc)) :
    (∀ u ∈ inc,
      (u ∈ s.Tables ∧
        ((matchLength env (includePatterns env s opt) u.Name).2 = true ∨
          matchTableOrColumnLabels env opt.IncludeLabels u = true)) ∨
      ∃ t ∈ tentativeIncludes env s opt, ∃ ts rs,
        env.CollectTablesAndRelations t opt.Distance true = .ok (ts, rs) ∧ u ∈ ts) ∧
    (∀ t ∈ s.Tables, (∀ u ∈ inc, u.Name ≠ t.Name) → ∃ v ∈ exc, v.Name = t.Name) ∧
    (∀ t ∈ s.Tables,
      (matchLength env (includePatterns env s opt) t.Name).2 = false →
      (∀ u ∈ s.Tables, u.Name = t.Name →
        matchTableOrColumnLabels env opt.IncludeLabels u = false) →
      (∀ u ∈ tentativeIncludes env s opt, ∀ ts rs,
        env.CollectTablesAndRelations u opt.Distance true = .ok (ts, rs) →
          ∀ v ∈ ts, v.Name ≠ t.Name) →
      (∃ v ∈ exc, v.Name = t.Name) ∧ ∀ v ∈ inc, v.Name ≠ t.Name) ∧
    (opt.Include = [] → ∀ u ∈ inc,
      (u ∈ s.Tables ∧ matchTableOrColumnLabels env opt.IncludeLabels u = true) ∨
      ∃ t ∈ tentativeIncludes env s opt, ∃ ts rs,
        env.CollectTablesAndRelations t opt.Distance true = .ok (ts, rs) ∧ u ∈ ts) := by
  have hfirst : ∀ u ∈ inc,
      (u ∈ s.Tables ∧
        ((matchLength env (includePatterns env s opt) u.Name).2 = true ∨
          matchTableOrColumnLabels env opt.IncludeLabels u = true)) ∨
      ∃ t ∈ tentativeIncludes env s opt, ∃ ts rs,
        env.CollectTablesAndRelations t opt.Distance true = .ok (ts, rs) ∧ u ∈ ts := by
    intro u hu
    rcases included_cases env s opt inc exc h u hu with hi | hcl
    · obtain ⟨hs, ht⟩ := (mem_tentativeIncludes env s opt u).1 hi
      exact Or.inl ⟨hs, tentative_positive env s opt u hpos ht⟩
    · exact Or.inr hcl
  refine ⟨hfirst, ?_, ?_, ?_⟩
  · intro t ht hnot
    by_contra hne
    have hin : t.Name ∈ inc.map Table.Name := by
      rw [name_included_iff_not_excluded env s opt inc exc h t ht]
      intro hmem
      obtain ⟨v, hv, hvt⟩ := List.mem_map.1 hmem
      exact hne ⟨v, hv, hvt⟩
    obtain ⟨u, hu, hut⟩ := List.mem_map.1 hin
    exact hnot u hu hut
  · intro t ht hmi hml hcl
    apply excluded_of_unreached env s opt inc exc h t ht _ hcl
    intro u hu hut
    obtain ⟨hs, hten⟩ := (mem_tentativeIncludes env s opt u).1 hu
    rcases tentative_positive env s opt u hpos hten with h1 | h1
    · rw [hut, hmi] at h1
      cases h1
    · rw [hml u hs hut] at h1
      cases h1
  · intro hi u hu
    rcases hfirst u hu with ⟨hs, h1 | h1⟩ | hcl
    · rw [includePatterns_nil env s opt hi, matchLength_nil] at h1
      cases h1
    · exact Or.inl ⟨hs, h1⟩
    · exact Or.inr hcl

/-- C9, on the sample schema with `IncludeLabels = ["pii"]` at distance 1:
`users` carries the label, `posts` and `user_secret` come from its closure,
and `legacy_logs` is excluded. -/
theorem positive_filter_include_set_witness :
    SepareteTablesThatAreIncludedOrNot (refEnv demoSchema) demoSchema ⟨[], [], ["pii"], 1⟩
      = .ok ([secretTable, postsTable, usersTable], [legacyTable]) ∧
    (∀ u ∈ [secretTable, postsTable, usersTable],
      (u ∈ demoSchema.Tables ∧
        matchTableOrColumnLabels (refEnv demoSchema) ["pii"] u = true) ∨
      ∃ t ∈ tentativeIncludes (refEnv demoSchema) demoSchema ⟨[], [], ["pii"], 1⟩, ∃ ts rs,
        (refEnv demoSchema).CollectTablesAndRelations t 1 true = .ok (ts, rs) ∧ u ∈ ts) ∧
    (∃ v ∈ [legacyTable], v.Name = legacyTable.Name) :=
  ⟨rfl,
    (positive_filter_include_set (refEnv demoSchema) demoSchema ⟨[], [], ["pii"], 1⟩
      (Or.inr (by decide)) [secretTable, postsTable, usersTable] [legacyTable] rfl).2.2.2 rfl,
    (positive_filter_include_set (refEnv demoSchema) demoSchema ⟨[], [], ["pii"], 1⟩
      (Or.inr (by decide)) [secretTable, postsTable, usersTable] [legacyTable] rfl).2.1
      legacyTable (by decide) (by decide)⟩

/-! ## Classification: when the count check passes -/

theorem length_filter_add {α : Type} (f : α → Bool) (l : List α) :
    (l.filter f).length + (l.filter (fun a => !f a)).length = l.length := by
  induction l with
  | nil => rfl
  | cons a l ih =>
    cases h : f a <;> simp [List.filter_cons, h] <;> omega

theorem excludedFold_length (im : TableMap) (tables : List Table) (acc : TableMap)
    (hn : (tables.map Table.Name).Nodup)
    (hd : ∀ p ∈ acc, p.1 ∉ tables.map Table.Name) :
    (tables.foldl
      (fun m t => if mapHas im t.Name then m else mapSet m t.Name t) acc).length =
      acc.length + (tables.filter (fun t => !mapHas im t.Name)).length := by
  induction tables generalizing acc with
  | nil => simp
  | cons t rest ih =>
    rw [List.map_cons, List.nodup_cons] at hn
    rw [List.foldl_cons, List.filter_cons]
    cases hh : mapHas im t.Name
    · have hacc : mapHas acc t.Name = false := by
        rw [mapHas_eq_false_iff]
        intro p hp hpt
        exact hd p hp (by rw [hpt]; exact List.mem_map.2 ⟨t, List.mem_cons_self _ _, rfl⟩)
      simp only [Bool.false_eq_true, if_false, Bool.not_false, if_true, List.length_cons]
      rw [mapSet_of_not_has acc t.Name t hacc, ih _ hn.2]
      · rw [List.length_cons]; omega
      · intro p hp
        rcases List.mem_cons.1 hp with rfl | hp
        · exact hn.1
        · intro hmem
          exact hd p hp (by rw [List.map_cons]; exact List.mem_cons_of_mem _ hmem)
    · simp only [if_true, Bool.not_true, Bool.false_eq_true, if_false]
      apply ih _ hn.2
      intro p hp hmem
      exact hd p hp (by rw [List.map_cons]; exact List.mem_cons_of_mem _ hmem)

theorem excludedMapOf_length (im : TableMap) (tables : List Table)
    (hn : (tables.map Table.Name).Nodup) :
    (excludedMapOf im tables).length =
      (tables.filter (fun t => !mapHas im t.Name)).length := by
  have h := excludedFold_length im tables [] hn (fun p hp => by cases hp)
  simpa [excludedMapOf] using h

theorem included_length (im : TableMap) (tables : List Table)
    (hk : (im.map Prod.fst).Nodup) (hn : (tables.map Table.Name).Nodup)
    (hsub : ∀ p ∈ im, p.1 ∈ tables.map Table.Name) :
    (tables.filter (fun t => mapHas im t.Name)).length = im.length := by
  have h1 : ((tables.filter (fun t => mapHas im t.Name)).map Table.Name).Nodup :=
    hn.sublist ((List.filter_sublist tables).map Table.Name)
  have h2 : ((tables.filter (fun t => mapHas im t.Name)).map Table.Name).Perm
      (im.map Prod.fst) := by
    rw [List.perm_ext_iff_of_nodup h1 hk]
    intro k
    constructor
    · intro hmem
      obtain ⟨t, ht, rfl⟩ := List.mem_map.1 hmem
      obtain ⟨p, hp, hpk⟩ := (mapHas_iff im t.Name).1 (List.mem_filter.1 ht).2
      exact List.mem_map.2 ⟨p, hp, hpk⟩
    · intro hmem
      obtain ⟨p, hp, rfl⟩ := List.mem_map.1 hmem
      obtain ⟨t, ht, htp⟩ := List.mem_map.1 (hsub p hp)
      refine List.mem_map.2 ⟨t, List.mem_filter.2 ⟨ht, ?_⟩, htp⟩
      exact (mapHas_iff im t.Name).2 ⟨p, hp, htp.symm⟩
  have h3 := h2.length_eq
  simpa using h3

theorem collectLoop_ok (env : Env) (opt : FilterOption) (l : List Table) (m : TableMap)
    (h : ∀ t ∈ l, ∃ ts rs, env.CollectTablesAndRelations t opt.Distance true = .ok (ts, rs)) :
    ∃ m1, collectLoop env opt l m = .ok m1 := by
  induction l generalizing m with
  | nil => exact ⟨m, rfl⟩
  | cons t rest ih =>
    obtain ⟨ts, rs, hc⟩ := h t (List.mem_cons_self _ _)
    obtain ⟨m1, h1⟩ := ih (addClosure (mapSet m t.Name t) ts)
      (fun u hu => h u (List.mem_cons_of_mem _ hu))
    exact ⟨m1, (collectLoop_cons_ok env opt t rest m m1).2 ⟨ts, rs, hc, h1⟩⟩

/-- The classification succeeds on a schema with pairwise distinct table
names when every closure call succeeds and returns only names of schema
tables. -/
theorem separete_succeeds (env : Env) (s : Schema) (opt : FilterOption)
    (hn : (s.Tables.map Table.Name).Nodup)
    (hc : ∀ t ∈ tentativeIncludes env s opt, ∃ ts rs,
      env.CollectTablesAndRelations t opt.Distance true = .ok (ts, rs) ∧
        ∀ u ∈ ts, u.Name ∈ s.Tables.map Table.Name) :
    ∃ inc exc, SepareteTablesThatAreIncludedOrNot env s opt = .ok (inc, exc) := by
  obtain ⟨im, him⟩ := collectLoop_ok env opt (tentativeIncludes env s opt) []
    (fun t ht => by
      obtain ⟨ts, rs, h1, _⟩ := hc t ht
      exact ⟨ts, rs, h1⟩)
  have hsub : ∀ p ∈ im, p.1 ∈ s.Tables.map Table.Name := by
    intro p hp
    obtain ⟨hkey, hcase⟩ := includedMap_key_cases env s opt im him p hp
    rw [hkey]
    rcases hcase with hi | ⟨t, ht, ts, rs, hcl, hu⟩
    · exact List.mem_map.2 ⟨p.2, ((mem_tentativeIncludes env s opt p.2).1 hi).1, rfl⟩
    · obtain ⟨ts1, rs1, h1, h2⟩ := hc t ht
      rw [hcl] at h1
      simp only [Except.ok.injEq, Prod.mk.injEq] at h1
      exact h2 p.2 (h1.1 ▸ hu)
  refine ⟨mapValues env im, mapValues env (excludedMapOf im s.Tables), ?_⟩
  rw [separete_ok_iff]
  refine ⟨im, him, rfl, rfl, ?_⟩
  rw [length_mapValues, length_mapValues, excludedMapOf_length im s.Tables hn,
    ← included_length im s.Tables (collectLoop_nodup env opt _ [] im him List.nodup_nil) hn hsub]
  exact (length_filter_add (fun t => mapHas im t.Name) s.Tables).symm

theorem tentative_no_filter (env : Env) (s : Schema) (d : Int) (t : Table) :
    tentative env s ⟨[], [], [], d⟩ t = true := by
  rw [tentative_default env s _ t rfl rfl]
  simp [excludePatterns, NormalizeTableNames, matchLength]

/-- C10, as amended: with `Include = []`, `Exclude = []` and
`IncludeLabels = []`, every successful classification returns an include set
containing every table of the schema and an empty exclude set; and the
classification does succeed, with every table itself in the include set, on
a schema with pairwise distinct table names whose closure calls succeed and
return only names of schema tables. -/
theorem no_filter_includes_every_table (env : Env) (s : Schema) (d : Int) :
    (∀ inc exc,
      SepareteTablesThatAreIncludedOrNot env s ⟨[], [], [], d⟩ = .ok (inc, exc) →
        exc = [] ∧ ∀ t ∈ s.Tables, ∃ u ∈ inc, u.Name = t.Name) ∧
    ((s.Tables.map Table.Name).Nodup →
      (∀ t ∈ s.Tables, ∃ ts rs,
        env.CollectTablesAndRelations t d true = .ok (ts, rs) ∧
          ∀ u ∈ ts, u.Name ∈ s.Tables.map Table.Name) →
      ∃ inc, SepareteTablesThatAreIncludedOrNot env s ⟨[], [], [], d⟩ = .ok (inc, []) ∧
        ∀ t ∈ s.Tables, t ∈ inc) := by
  have hall : ∀ t ∈ s.Tables, t ∈ tentativeIncludes env s ⟨[], [], [], d⟩ := fun t ht =>
    (mem_tentativeIncludes env s _ t).2 ⟨ht, tentative_no_filter env s d t⟩
  have hA : ∀ inc exc,
      SepareteTablesThatAreIncludedOrNot env s ⟨[], [], [], d⟩ = .ok (inc, exc) →
        exc = [] ∧ ∀ t ∈ s.Tables, ∃ u ∈ inc, u.Name = t.Name := by
    intro inc exc h
    have hin : ∀ t ∈ s.Tables, ∃ u ∈ inc, u.Name = t.Name := fun t ht =>
      (tentative_included env s _ t (hall t ht) inc exc h).1
    refine ⟨?_, hin⟩
    rw [List.eq_nil_iff_forall_not_mem]
    intro v hv
    have hd := separete_names_disjoint env s _ inc exc h
    obtain ⟨im, _, _, _, _, hexc, _⟩ := separete_includedMap env s _ inc exc h
    have hv1 := hv
    rw [hexc] at hv1
    obtain ⟨p, hp, hpv⟩ := (mem_mapValues env _ v).1 hv1
    obtain ⟨hpt, _, _⟩ := excludedMapOf_mem im s.Tables p hp
    rw [hpv] at hpt
    obtain ⟨u, hu, huv⟩ := hin v hpt
    exact hd u hu v hv huv
  refine ⟨hA, ?_⟩
  intro hn hc
  obtain ⟨inc, exc, h⟩ := separete_succeeds env s ⟨[], [], [], d⟩ hn
    (fun t ht => hc t ((mem_tentativeIncludes env s _ t).1 ht).1)
  have he := (hA inc exc h).1
  subst he
  exact ⟨inc, h, fun t ht => (tentative_included env s _ t (hall t ht) inc [] h).2 hn⟩

/-- C10 as amended, on the sample schema at distance 1. -/
theorem no_filter_includes_every_table_witness :
    (demoSchema.Tables.map Table.Name).Nodup ∧
    SepareteTablesThatAreIncludedOrNot (refEnv demoSchema) demoSchema ⟨[], [], [], 1⟩
      = .ok ([legacyTable, secretTable, postsTable, usersTable], []) ∧
    (([] : List Table) = [] ∧
      ∀ t ∈ demoSchema.Tables,
        ∃ u ∈ [legacyTable, secretTable, postsTable, usersTable], u.Name = t.Name) :=
  ⟨by decide, rfl,
    (no_filter_includes_every_table (refEnv demoSchema) demoSchema 1).1
      [legacyTable, secretTable, postsTable, usersTable] [] rfl⟩

/-- C10 fails as stated: without any filter the classification returns no
sets, but the consistency error, on a schema in which two tables share a
name, and the error of the closure primitive when that primitive fails. -/
theorem no_filter_failure_counterexample :
    SepareteTablesThatAreIncludedOrNot (refEnv duplicateSchema) duplicateSchema
      ⟨[], [], [], 0⟩ = .error (Error.separate 2 1) ∧
    SepareteTablesThatAreIncludedOrNot failingEnv singleSchema
      ⟨[], [], [], 0⟩ = .error (Error.closure "closure failed") :=
  ⟨rfl, rfl⟩

/-! ## Classification: growing the distance -/

theorem tablesWithin_succ (s : Schema) (d : Nat) (t u : Table)
    (h : u ∈ tablesWithin s d t) : u ∈ tablesWithin s (d + 1) t := by
  induction d generalizing t u with
  | zero =>
    have hu : u = t := List.mem_singleton.1 h
    rw [hu]
    exact List.mem_cons_self _ _
  | succ d ih =>
    rcases List.mem_cons.1 h with hu | hu
    · rw [hu]
      exact List.mem_cons_self _ _
    · obtain ⟨n, hn, hun⟩ := List.mem_flatMap.1 hu
      exact List.mem_cons_of_mem _ (List.mem_flatMap.2 ⟨n, hn, ih n u hun⟩)

theorem tablesWithin_mono (s : Schema) (a b : Nat) (hab : a ≤ b) (t u : Table)
    (h : u ∈ tablesWithin s a t) : u ∈ tablesWithin s b t := by
  induction b, hab using Nat.le_induction with
  | base => exact h
  | succ b _ ih => exact tablesWithin_succ s b t u ih

/-- The closure along the relations of a schema grows with the distance. -/
theorem collectWithin_monotone (s : Schema) : ClosureMonotone (refEnv s) := by
  intro t a b ts ts1 rs rs1 hab h1 h2 u hu
  have e1 : (Except.ok (tablesWithin s a.toNat t, s.Relations.filter (fun r =>
      (tablesWithin s a.toNat t).any (fun u => u.Name == r.Table.Name) &&
      (tablesWithin s a.toNat t).any (fun u => u.Name == r.ParentTable.Name))) :
      Except Error (List Table × List Relation)) = .ok (ts, rs) := h1
  have e2 : (Except.ok (tablesWithin s b.toNat t, s.Relations.filter (fun r =>
      (tablesWithin s b.toNat t).any (fun u => u.Name == r.Table.Name) &&
      (tablesWithin s b.toNat t).any (fun u => u.Name == r.ParentTable.Name))) :
      Except Error (List Table × List Relation)) = .ok (ts1, rs1) := h2
  simp only [Except.ok.injEq, Prod.mk.injEq] at e1 e2
  refine ⟨u, ?_, rfl⟩
  rw [← e2.1]
  apply tablesWithin_mono s a.toNat b.toNat (Int.toNat_le_toNat hab)
  rw [e1.1]
  exact hu

theorem collectLoop_closure_ok (env : Env) (opt : FilterOption) (l : List Table)
    (m m1 : TableMap) (h : collectLoop env opt l m = .ok m1) (t : Table) (ht : t ∈ l) :
    ∃ ts rs, env.CollectTablesAndRelations t opt.Distance true = .ok (ts, rs) := by
  induction l generalizing m with
  | nil => cases ht
  | cons t0 rest ih =>
    obtain ⟨ts0, rs0, h1, h2⟩ := (collectLoop_cons_ok env opt t0 rest m m1).1 h
    rcases List.mem_cons.1 ht with rfl | ht
    · exact ⟨ts0, rs0, h1⟩
    · exact ih _ h2 ht

/-- A table returned by the closure of a tentatively included table has its
name in the include set. -/
theorem closure_name_included (env : Env) (s : Schema) (opt : FilterOption) (t : Table)
    (ht : t ∈ tentativeIncludes env s opt) (ts : List Table) (rs : List Relation)
    (hc : env.CollectTablesAndRelations t opt.Distance true = .ok (ts, rs))
    (u : Table) (hu : u ∈ ts) (inc exc : List Table)
    (h : SepareteTablesThatAreIncludedOrNot env s opt = .ok (inc, exc)) :
    ∃ v ∈ inc, v.Name = u.Name := by
  obtain ⟨im, h1, hk, _, rfl, rfl, _⟩ := separete_includedMap env s opt inc exc h
  exact (name_mem_mapValues env im hk u.Name).2
    (collectLoop_has_closure env opt _ [] im h1 t ht ts rs hc u hu)

/-- C11: for two filter options that differ only in `Distance`, `d ≤ d1`,
and a closure primitive whose result grows with the distance, if both
classifications succeed then every table name of the include set for `d` is a
table name of the include set for `d1`. -/
theorem include_set_grows_with_distance (env : Env) (s : Schema)
    (i e l : List String) (d d1 : Int) (hd : d ≤ d1) (hmono : ClosureMonotone env)
    (inc exc inc1 exc1 : List Table)
    (h : SepareteTablesThatAreIncludedOrNot env s ⟨i, e, l, d⟩ = .ok (inc, exc))
    (h1 : SepareteTablesThatAreIncludedOrNot env s ⟨i, e, l, d1⟩ = .ok (inc1, exc1)) :
    ∀ u ∈ inc, ∃ v ∈ inc1, v.Name = u.Name := by
  intro u hu
  have hsame : tentativeIncludes env s ⟨i, e, l, d⟩ = tentativeIncludes env s ⟨i, e, l, d1⟩ := rfl
  rcases included_cases env s _ inc exc h u hu with hi | ⟨t, ht, ts, rs, hc, hut⟩
  · rw [hsame] at hi
    exact (tentative_included env s _ u hi inc1 exc1 h1).1
  · rw [hsame] at ht
    obtain ⟨im1, hc1, _⟩ := separete_includedMap env s _ inc1 exc1 h1
    obtain ⟨ts1, rs1, hcl1⟩ := collectLoop_closure_ok env _ _ [] im1 hc1 t ht
    obtain ⟨v, hv, hvu⟩ := hmono t d d1 ts ts1 rs rs1 hd hc hcl1 u hut
    obtain ⟨w, hw, hwv⟩ := closure_name_included env s _ t ht ts1 rs1 hcl1 v hv inc1 exc1 h1
    exact ⟨w, hw, hwv.trans hvu⟩

/-- C11, on the sample schema with `Include = ["users"]`: the include set
grows from `users` at distance 0 to all three related tables at distance 1. -/
theorem include_set_grows_with_distance_witness :
    SepareteTablesThatAreIncludedOrNot (refEnv demoSchema) demoSchema ⟨["users"], [], [], 0⟩
      = .ok ([usersTable], [legacyTable, secretTable, postsTable]) ∧
    SepareteTablesThatAreIncludedOrNot (refEnv demoSchema) demoSchema ⟨["users"], [], [], 1⟩
      = .ok ([secretTable, postsTable, usersTable], [legacyTable]) ∧
    ∀ u ∈ [usersTable], ∃ v ∈ [secretTable, postsTable, usersTable], v.Name = u.Name :=
  ⟨rfl, rfl,
    include_set_grows_with_distance (refEnv demoSchema) demoSchema ["users"] [] [] 0 1
      (by decide) (collectWithin_monotone demoSchema)
      [usersTable] [legacyTable, secretTable, postsTable]
      [secretTable, postsTable, usersTable] [legacyTable] rfl rfl⟩

/-! ## The matching helpers -/

theorem utf8ByteSize_go_eq (cs : List Char) :
    String.utf8ByteSize.go cs = (cs.map Char.utf8Size).sum := by
  induction cs with
  | nil => rfl
  | cons c cs ih =>
    simp only [String.utf8ByteSize.go, List.map_cons, List.sum_cons, ih]
    omega

theorem len_replaceAllStar (v : String) : len (replaceAllStar v) = literalBytes v := by
  simp only [len, replaceAllStar, literalBytes, String.utf8ByteSize, utf8ByteSize_go_eq]

theorem utf8Size_ascii (c : Char) (h : c.val ≤ 127) : c.utf8Size = 1 := by
  simp [Char.utf8Size, h]

theorem sum_utf8Size_ascii (cs : List Char) (h : ∀ c ∈ cs, c.val ≤ 127) :
    (cs.map Char.utf8Size).sum = cs.length := by
  induction cs with
  | nil => rfl
  | cons c cs ih =>
    rw [List.map_cons, List.sum_cons, List.length_cons,
      utf8Size_ascii c (h c (List.mem_cons_self _ _)),
      ih (fun x hx => h x (List.mem_cons_of_mem _ hx))]
    omega

theorem literalBytes_ascii (v : String) (h : ∀ c ∈ v.data, c.val ≤ 127) :
    literalBytes v = literalCount v := by
  unfold literalBytes literalCount
  apply sum_utf8Size_ascii
  intro c hc
  exact h c (List.mem_filter.1 hc).1

theorem matchLength_none (env : Env) (l : List String) (e : String)
    (h : ∀ v ∈ l, env.MatchSimple v e = false) : matchLength env l e = (0, false) := by
  induction l with
  | nil => rfl
  | cons v l ih =>
    rw [matchLength, h v (List.mem_cons_self _ _)]
    simp only [Bool.false_eq_true, if_false]
    exact ih (fun w hw => h w (List.mem_cons_of_mem _ hw))

theorem matchLength_first (env : Env) (l : List String) (e : String) (v : String)
    (h : l.find? (fun w => env.MatchSimple w e) = some v) :
    matchLength env l e = (len (replaceAllStar v), true) := by
  induction l with
  | nil => cases h
  | cons w l ih =>
    rw [matchLength]
    cases hw : env.MatchSimple w e
    · rw [List.find?_cons, hw] at h
      simp only [Bool.false_eq_true, if_false]
      exact ih h
    · rw [List.find?_cons, hw] at h
      simp only [Option.some.injEq] at h
      simp only [if_true, h]

/-- C12, as amended: `matchLength` returns `(0, false)` when no pattern
matches the name, and otherwise `(n, true)` where `n` is the number of UTF-8
bytes of the characters other than `*` of the first pattern in list order
that matches the name; for a pattern of ASCII characters `n` is the count of
its characters other than `*`. -/
theorem matchLength_first_match (env : Env) (l : List String) (e : String) :
    ((∀ v ∈ l, env.MatchSimple v e = false) → matchLength env l e = (0, false)) ∧
    (∀ v, l.find? (fun w => env.MatchSimple w e) = some v →
      matchLength env l e = (literalBytes v, true) ∧
      ((∀ c ∈ v.data, c.val ≤ 127) → matchLength env l e = (literalCount v, true))) := by
  refine ⟨matchLength_none env l e, ?_⟩
  intro v hv
  have h := matchLength_first env l e v hv
  rw [len_replaceAllStar] at h
  refine ⟨h, ?_⟩
  intro hascii
  rw [h, literalBytes_ascii v hascii]

/-- C12 as amended, on the patterns `posts`, `user*`, `users` and the name
`users`: the first match is `user*`, of specificity 4. -/
theorem matchLength_first_match_witness :
    matchLength (refEnv demoSchema) ["posts", "user*", "users"] "users" = (4, true) ∧
    literalCount "user*" = 4 ∧
    matchLength (refEnv demoSchema) ["posts", "legacy_*"] "users" = (0, false) :=
  ⟨((matchLength_first_match (refEnv demoSchema) ["posts", "user*", "users"] "users").2
      "user*" (by decide)).2 (by decide),
    by decide,
    (matchLength_first_match (refEnv demoSchema) ["posts", "legacy_*"] "users").1
      (by decide)⟩

/-- C12 fails as stated: the pattern `é*` has one character other than `*`,
and `matchLength` returns the specificity 2, the number of bytes of `é`. -/
theorem matchLength_bytes_counterexample :
    MatchSimple "é*" "école" = true ∧
    literalCount "é*" = 1 ∧
    matchLength (refEnv demoSchema) ["é*"] "école" = (2, true) :=
  ⟨by decide, by decide, by decide⟩

/-! ## Errors of the surgeon and of the entry point -/

theorem filterLoop_no_error (exs : List Table) (s : Schema) : (filterLoop exs s).1 = none := by
  rw [filterLoop_eq]

theorem filter_error_iff (env : Env) (s : Schema) (opt : FilterOption) (err : Error) :
    (Filter env s opt).1 = some err ↔
      SepareteTablesThatAreIncludedOrNot env s opt = .error err := by
  unfold Filter
  cases hs : SepareteTablesThatAreIncludedOrNot env s opt with
  | error e0 =>
    simp only [Option.some.injEq, Except.error.injEq]
  | ok r =>
    obtain ⟨inc, exc⟩ := r
    simp only [filterLoop_no_error]
    constructor
    · intro h; cases h
    · intro h; cases h

/-- C13: `excludeTableFromSchema` returns no error for every name and schema,
whether or not a table carries the name; the loop of `Filter` therefore never
takes its failing branch, and `Filter` returns an error exactly when
`SepareteTablesThatAreIncludedOrNot` does, namely that same error. -/
theorem filter_fails_only_with_classification (env : Env) (s : Schema) (opt : FilterOption) :
    (∀ (name : String) (s0 : Schema), (excludeTableFromSchema name s0).1 = none) ∧
    (∀ (exs : List Table) (s0 : Schema), (filterLoop exs s0).1 = none) ∧
    (∀ err, (Filter env s opt).1 = some err ↔
      SepareteTablesThatAreIncludedOrNot env s opt = .error err) ∧
    ((Filter env s opt).1 ≠ none ↔
      ∃ err, SepareteTablesThatAreIncludedOrNot env s opt = .error err) := by
  refine ⟨fun _ _ => rfl, filterLoop_no_error, filter_error_iff env s opt, ?_⟩
  constructor
  · intro h
    cases hf : (Filter env s opt).1 with
    | none => exact absurd hf h
    | some err => exact ⟨err, (filter_error_iff env s opt err).1 hf⟩
  · rintro ⟨err, he⟩ hn
    rw [(filter_error_iff env s opt err).2 he] at hn
    cases hn

theorem tablesWithin_subset (s : Schema) (d : Nat) (t u : Table)
    (h : u ∈ tablesWithin s d t) : u = t ∨ u ∈ s.Tables := by
  induction d generalizing t u with
  | zero => exact Or.inl (List.mem_singleton.1 h)
  | succ d ih =>
    rcases List.mem_cons.1 h with hu | hu
    · exact Or.inl hu
    · obtain ⟨n, hn, hun⟩ := List.mem_flatMap.1 hu
      have hns : n ∈ s.Tables := (List.mem_filter.1 hn).1
      rcases ih n u hun with rfl | h1
      · exact Or.inr hns
      · exact Or.inr h1

/-- The closure along the relations of a schema succeeds and, from a table
of the schema, returns only tables of the schema. -/
theorem collectWithin_closed (s : Schema) (t : Table) (ht : t ∈ s.Tables) (d : Int) :
    ∃ ts rs, (refEnv s).CollectTablesAndRelations t d true = .ok (ts, rs) ∧
      ∀ u ∈ ts, u.Name ∈ s.Tables.map Table.Name := by
  refine ⟨tablesWithin s d.toNat t, _, rfl, ?_⟩
  intro u hu
  rcases tablesWithin_subset s d.toNat t u hu with rfl | h
  · exact List.mem_map.2 ⟨u, ht, rfl⟩
  · exact List.mem_map.2 ⟨u, h, rfl⟩

/-- C14: on a schema whose tables have pairwise distinct names, for every
filter option, if every closure call of the classification succeeds and
returns only tables of the schema, then the count check passes: the
classification returns its two sets and not the consistency error. -/
theorem count_check_passes (env : Env) (s : Schema) (opt : FilterOption)
    (hn : (s.Tables.map Table.Name).Nodup)
    (hc : ∀ t ∈ tentativeIncludes env s opt, ∃ ts rs,
      env.CollectTablesAndRelations t opt.Distance true = .ok (ts, rs) ∧
        ∀ u ∈ ts, u.Name ∈ s.Tables.map Table.Name) :
    (∃ inc exc, SepareteTablesThatAreIncludedOrNot env s opt = .ok (inc, exc)) ∧
    ∀ expected actual,
      SepareteTablesThatAreIncludedOrNot env s opt ≠ .error (Error.separate expected actual) := by
  obtain ⟨inc, exc, h⟩ := separete_succeeds env s opt hn hc
  refine ⟨⟨inc, exc, h⟩, ?_⟩
  intro a b hab
  rw [h] at hab
  cases hab

/-- C14, on the sample schema with `Include = ["user*"]` at distance 2. -/
theorem count_check_passes_witness :
    (demoSchema.Tables.map Table.Name).Nodup ∧
    ((∃ inc exc, SepareteTablesThatAreIncludedOrNot (refEnv demoSchema) demoSchema
        ⟨["user*"], [], [], 2⟩ = .ok (inc, exc)) ∧
      ∀ expected actual,
        SepareteTablesThatAreIncludedOrNot (refEnv demoSchema) demoSchema
          ⟨["user*"], [], [], 2⟩ ≠ .error (Error.separate expected actual)) :=
  ⟨by decide,
    count_check_passes (refEnv demoSchema) demoSchema ⟨["user*"], [], [], 2⟩ (by decide)
      (fun t ht => collectWithin_closed demoSchema t
        ((mem_tentativeIncludes (refEnv demoSchema) demoSchema _ t).1 ht).1 2)⟩

/-! ## The label branch and the order of patterns -/

/-- C15: for a table that matches no Include pattern and carries, on itself
or on a column, a label matching IncludeLabels, the tentative decision is
`excluded` when the table matches an Exclude pattern and `included`
otherwise; the specificities play no part. -/
theorem label_branch_ignores_specificity (env : Env) (s : Schema) (opt : FilterOption)
    (t : Table)
    (hmi : (matchLength env (includePatterns env s opt) t.Name).2 = false)
    (hml : matchTableOrColumnLabels env opt.IncludeLabels t = true) :
    ((matchLength env (excludePatterns env s opt) t.Name).2 = true →
      tentative env s opt t = false) ∧
    ((matchLength env (excludePatterns env s opt) t.Name).2 = false →
      tentative env s opt t = true) := by
  constructor <;> intro hme <;> unfold tentative <;> simp [hmi, hml, hme]

/-- C15, on the sample schema: `users` has a column labelled `pii`, matches
no Include pattern and matches the Exclude pattern `*` of specificity 0; it
is tentatively excluded, and tentatively included once `*` is dropped. -/
theorem label_branch_ignores_specificity_witness :
    matchLength (refEnv demoSchema)
      (excludePatterns (refEnv demoSchema) demoSchema ⟨["posts"], ["*"], ["pii"], 0⟩)
      usersTable.Name = (0, true) ∧
    tentative (refEnv demoSchema) demoSchema ⟨["posts"], ["*"], ["pii"], 0⟩ usersTable = false ∧
    tentative (refEnv demoSchema) demoSchema ⟨["posts"], [], ["pii"], 0⟩ usersTable = true :=
  ⟨by decide,
    (label_branch_ignores_specificity (refEnv demoSchema) demoSchema
      ⟨["posts"], ["*"], ["pii"], 0⟩ usersTable (by decide) (by decide)).1 (by decide),
    (label_branch_ignores_specificity (refEnv demoSchema) demoSchema
      ⟨["posts"], [], ["pii"], 0⟩ usersTable (by decide) (by decide)).2 (by decide)⟩

/-- C16: the order of the Include patterns matters.  On the schema whose
only table is `users`, with `Exclude = ["user*"]`, the Include list
`["*", "users"]` gives the specificity 0 and puts `users` in the exclude set,
while `["users", "*"]` gives the specificity 5 and puts it in the include
set. -/
theorem pattern_order_matters :
    ∃ (s : Schema) (t : Table) (o1 o2 : FilterOption),
      t ∈ s.Tables ∧
      o1.Include = ["*", "users"] ∧ o2.Include = ["users", "*"] ∧
      o1.Exclude = o2.Exclude ∧ o1.IncludeLabels = o2.IncludeLabels ∧
      o1.Distance = o2.Distance ∧
      matchLength (refEnv s) (includePatterns (refEnv s) s o1) t.Name = (0, true) ∧
      matchLength (refEnv s) (includePatterns (refEnv s) s o2) t.Name = (5, true) ∧
      matchLength (refEnv s) (excludePatterns (refEnv s) s o1) t.Name = (4, true) ∧
      SepareteTablesThatAreIncludedOrNot (refEnv s) s o1 = .ok ([], [t]) ∧
      SepareteTablesThatAreIncludedOrNot (refEnv s) s o2 = .ok ([t], []) :=
  ⟨usersSchema, bareTable "users", ⟨["*", "users"], ["user*"], [], 0⟩,
    ⟨["users", "*"], ["user*"], [], 0⟩,
    by decide, rfl, rfl, rfl, rfl, rfl, by decide, by decide, by decide, rfl, rfl⟩

/-! ## The surgeon only removes -/

theorem keepsRelation_eq (name : String) :
    keepsRelation name = fun r => !touchesName name r := by
  funext r
  by_cases h1 : r.Table.Name = name <;> by_cases h2 : r.ParentTable.Name = name <;>
    simp [keepsRelation, touchesName, h1, h2]

theorem filter_map_name (name : String) (f : Table → Table)
    (hf : ∀ t, (f t).Name = t.Name) (l : List Table) :
    (l.map f).filter (fun t => t.Name != name) =
      (l.filter (fun t => decide (t.Name ≠ name))).map f := by
  induction l with
  | nil => rfl
  | cons t l ih =>
    by_cases h : t.Name = name
    · simp [List.filter_cons, hf, h, ih]
    · simp [List.filter_cons, hf, h, ih]

/-- C17: `excludeTableFromSchema(name, s)` only removes.  The table list is
the original one without the tables named `name`, in order, each remaining
table keeping its name, its labels and its columns, and each column its name
and labels; the relation list of the schema and both relation lists of every
column are the original lists without the entries whose `Table.Name` or
`ParentTable.Name` equals `name`, in order. -/
theorem exclude_only_removes (name : String) (s : Schema) :
    (excludeTableFromSchema name s).2.Tables =
      (s.Tables.filter (fun t => decide (t.Name ≠ name))).map (fun t =>
        ({ Name := t.Name
           Labels := t.Labels
           Columns := t.Columns.map (fun c =>
             ({ Name := c.Name
                Labels := c.Labels
                ChildRelations := c.ChildRelations.filter (fun r => !touchesName name r)
                ParentRelations := c.ParentRelations.filter (fun r => !touchesName name r) }
              : Column)) } : Table)) ∧
    (excludeTableFromSchema name s).2.Relations =
      s.Relations.filter (fun r => !touchesName name r) ∧
    (excludeTableFromSchema name s).2.Name = s.Name ∧
    (excludeTableFromSchema name s).2.Tables.map Table.Name =
      (s.Tables.map Table.Name).filter (fun n => decide (n ≠ name)) ∧
    (excludeTableFromSchema name s).2.Tables.Sublist
      (s.Tables.map (pruneTable name)) ∧
    (excludeTableFromSchema name s).2.Relations.Sublist s.Relations := by
  have htab : (excludeTableFromSchema name s).2.Tables =
      (s.Tables.filter (fun t => decide (t.Name ≠ name))).map (pruneTable name) :=
    filter_map_name name (pruneTable name) (fun _ => rfl) s.Tables
  refine ⟨?_, ?_, rfl, ?_, ?_, ?_⟩
  · rw [htab]
    apply List.map_congr_left
    intro t _
    have hcol : pruneColumn name = fun c =>
        ({ Name := c.Name
           Labels := c.Labels
           ChildRelations := c.ChildRelations.filter (fun r => !touchesName name r)
           ParentRelations := c.ParentRelations.filter (fun r => !touchesName name r) }
          : Column) := by
      funext c
      simp only [pruneColumn, keepsRelation_eq]
    simp only [pruneTable, hcol]
  · simp only [excludeTableFromSchema, keepsRelation_eq]
  · rw [htab, List.map_map, List.filter_map]
    rfl
  · exact List.filter_sublist _
  · exact List.filter_sublist _

/-! ## Failure of the closure primitive -/

theorem collectLoop_error (env : Env) (opt : FilterOption) (l : List Table) (m : TableMap)
    (h : ∃ t ∈ l, ∃ err, env.CollectTablesAndRelations t opt.Distance true = .error err) :
    ∃ pre t post err, l = pre ++ t :: post ∧
      (∀ u ∈ pre, ∃ ts rs, env.CollectTablesAndRelations u opt.Distance true = .ok (ts, rs)) ∧
      env.CollectTablesAndRelations t opt.Distance true = .error err ∧
      collectLoop env opt l m = .error err := by
  induction l generalizing m with
  | nil =>
    obtain ⟨t, ht, _⟩ := h
    cases ht
  | cons t0 rest ih =>
    cases h0 : env.CollectTablesAndRelations t0 opt.Distance true with
    | error e0 =>
      refine ⟨[], t0, rest, e0, rfl, fun u hu => absurd hu (List.not_mem_nil u), h0, ?_⟩
      simp only [collectLoop, h0]
    | ok r =>
      obtain ⟨ts0, rs0⟩ := r
      have hrest : ∃ t ∈ rest, ∃ err,
          env.CollectTablesAndRelations t opt.Distance true = .error err := by
        obtain ⟨t, ht, err, he⟩ := h
        rcases List.mem_cons.1 ht with rfl | ht
        · rw [h0] at he
          cases he
        · exact ⟨t, ht, err, he⟩
      obtain ⟨pre, t, post, err, hl, hpre, hf, hloop⟩ :=
        ih (addClosure (mapSet m t0.Name t0) ts0) hrest
      refine ⟨t0 :: pre, t, post, err, by rw [hl]; rfl, ?_, hf, ?_⟩
      · intro u hu
        rcases List.mem_cons.1 hu with rfl | hu
        · exact ⟨ts0, rs0, h0⟩
        · exact hpre u hu
      · simp only [collectLoop, h0]
        exact hloop

theorem filter_unchanged_on_error (env : Env) (s : Schema) (opt : FilterOption) (err : Error)
    (h : (Filter env s opt).1 = some err) : Filter env s opt = (some err, s) := by
  have hs := (filter_error_iff env s opt err).1 h
  unfold Filter
  rw [hs]

/-- C18: if the closure primitive fails for a tentatively included table,
the classification returns the error of the first such table in schema order
and no sets, and `Filter` returns that error and leaves the schema as it was;
whenever `Filter` returns an error the schema is unchanged. -/
theorem closure_failure_aborts (env : Env) (s : Schema) (opt : FilterOption) :
    ((∃ t ∈ tentativeIncludes env s opt, ∃ err,
        env.CollectTablesAndRelations t opt.Distance true = .error err) →
      ∃ pre t post err, tentativeIncludes env s opt = pre ++ t :: post ∧
        (∀ u ∈ pre, ∃ ts rs,
          env.CollectTablesAndRelations u opt.Distance true = .ok (ts, rs)) ∧
        env.CollectTablesAndRelations t opt.Distance true = .error err ∧
        SepareteTablesThatAreIncludedOrNot env s opt = .error err ∧
        Filter env s opt = (some err, s)) ∧
    (∀ err, (Filter env s opt).1 = some err → (Filter env s opt).2 = s) ∧
    ((Filter env s opt).1 ≠ none → (Filter env s opt).2 = s) := by
  have hgen : ∀ err, (Filter env s opt).1 = some err → (Filter env s opt).2 = s := by
    intro err h
    rw [filter_unchanged_on_error env s opt err h]
  refine ⟨?_, hgen, ?_⟩
  · intro hfail
    obtain ⟨pre, t, post, err, hl, hpre, hf, hloop⟩ :=
      collectLoop_error env opt (tentativeIncludes env s opt) [] hfail
    have hsep : SepareteTablesThatAreIncludedOrNot env s opt = .error err := by
      unfold SepareteTablesThatAreIncludedOrNot
      rw [hloop]
    refine ⟨pre, t, post, err, hl, hpre, hf, hsep, ?_⟩
    exact filter_unchanged_on_error env s opt err ((filter_error_iff env s opt err).2 hsep)
  · intro hne
    cases hf : (Filter env s opt).1 with
    | none => exact absurd hf hne
    | some err => exact hgen err hf

/-- C18, on the sample schema with a closure primitive that fails. -/
theorem closure_failure_aborts_witness :
    SepareteTablesThatAreIncludedOrNot failingEnv demoSchema ⟨["user*"], [], [], 1⟩
      = .error (Error.closure "closure failed") ∧
    Filter failingEnv demoSchema ⟨["user*"], [], [], 1⟩
      = (some (Error.closure "closure failed"), demoSchema) ∧
    (Filter failingEnv demoSchema ⟨["user*"], [], [], 1⟩).2 = demoSchema :=
  ⟨rfl, rfl,
    (closure_failure_aborts failingEnv demoSchema ⟨["user*"], [], [], 1⟩).2.1
      (Error.closure "closure failed") rfl⟩

/-! ## Order of the removals -/

theorem touchesNone_congr (l1 l2 : List String) (h : ∀ n, n ∈ l1 ↔ n ∈ l2) :
    touchesNone l1 = touchesNone l2 := by
  funext r
  rw [Bool.eq_iff_iff, touchesNone_iff, touchesNone_iff, h, h]

theorem notNamed_congr (l1 l2 : List String) (h : ∀ n, n ∈ l1 ↔ n ∈ l2) :
    notNamed l1 = notNamed l2 := by
  funext t
  rw [Bool.eq_iff_iff, notNamed_iff, notNamed_iff, h]

theorem withoutRelationsTo_congr (l1 l2 : List String) (h : ∀ n, n ∈ l1 ↔ n ∈ l2) :
    withoutRelationsTo l1 = withoutRelationsTo l2 := by
  funext t
  have hc : columnWithoutRelationsTo l1 = columnWithoutRelationsTo l2 := by
    funext c
    simp only [columnWithoutRelationsTo, touchesNone_congr l1 l2 h]
  simp only [withoutRelationsTo, hc]

/-- The loop of `Filter` depends only on the set of names it removes. -/
theorem filterLoop_congr (exs1 exs2 : List Table) (s : Schema)
    (h : ∀ n, n ∈ exs1.map Table.Name ↔ n ∈ exs2.map Table.Name) :
    filterLoop exs1 s = filterLoop exs2 s := by
  rw [filterLoop_eq, filterLoop_eq, touchesNone_congr _ _ h, notNamed_congr _ _ h,
    withoutRelationsTo_congr _ _ h]

theorem filterLoop_perm (exs1 exs2 : List Table) (s : Schema) (h : exs1.Perm exs2) :
    filterLoop exs1 s = filterLoop exs2 s :=
  filterLoop_congr exs1 exs2 s (fun _ => (h.map Table.Name).mem_iff)

theorem matchLength_congr (env1 env2 : Env) (h : env1.MatchSimple = env2.MatchSimple)
    (l : List String) (e : String) : matchLength env1 l e = matchLength env2 l e := by
  induction l with
  | nil => rfl
  | cons v l ih => simp only [matchLength, h, ih]

theorem tentative_congr (env1 env2 : Env) (hm : env1.MatchSimple = env2.MatchSimple)
    (hz : env1.NormalizeTableName = env2.NormalizeTableName)
    (s : Schema) (opt : FilterOption) (t : Table) :
    tentative env1 s opt t = tentative env2 s opt t := by
  simp only [tentative, includePatterns, excludePatterns, NormalizeTableNames,
    matchTableOrColumnLabels, matchLabels, matchLength_congr env1 env2 hm, hm, hz]

theorem collectLoop_congr (env1 env2 : Env)
    (hc : env1.CollectTablesAndRelations = env2.CollectTablesAndRelations)
    (opt : FilterOption) (l : List Table) (m : TableMap) :
    collectLoop env1 opt l m = collectLoop env2 opt l m := by
  induction l generalizing m with
  | nil => rfl
  | cons t rest ih => simp only [collectLoop, hc, ih]

/-- Two environments that differ only in the order in which maps are ranged
give the same result of `Filter`. -/
theorem filter_range_independent (env1 env2 : Env)
    (hm : env1.MatchSimple = env2.MatchSimple)
    (hz : env1.NormalizeTableName = env2.NormalizeTableName)
    (hc : env1.CollectTablesAndRelations = env2.CollectTablesAndRelations)
    (s : Schema) (opt : FilterOption) :
    Filter env1 s opt = Filter env2 s opt := by
  have hten : tentativeIncludes env1 s opt = tentativeIncludes env2 s opt := by
    unfold tentativeIncludes
    apply List.filter_congr
    intro t _
    exact tentative_congr env1 env2 hm hz s opt t
  unfold Filter SepareteTablesThatAreIncludedOrNot
  rw [hten, collectLoop_congr env1 env2 hc]
  cases hl : collectLoop env2 opt (tentativeIncludes env2 s opt) [] with
  | error err => rfl
  | ok im =>
    simp only [length_mapValues]
    by_cases hlen : s.Tables.length = im.length + (excludedMapOf im s.Tables).length
    · rw [if_neg (by simpa using hlen), if_neg (by simpa using hlen)]
      apply filterLoop_perm
      unfold mapValues
      exact (((env1.mapRange_perm _).trans (env2.mapRange_perm _).symm).map _)
    · rw [if_pos (by simpa using hlen), if_pos (by simpa using hlen)]

/-- C19: removing `a` then `b` leaves the same schema as removing `b` then
`a`, and removing a name twice the same schema as removing it once; the loop
of `Filter` gives the same schema for every order of the exclude set, and
`Filter` the same result for every order in which maps are ranged. -/
theorem exclude_order_independent (s : Schema) :
    (∀ a b : String,
      excludeTableFromSchema b (excludeTableFromSchema a s).2 =
        excludeTableFromSchema a (excludeTableFromSchema b s).2) ∧
    (∀ a : String,
      excludeTableFromSchema a (excludeTableFromSchema a s).2 = excludeTableFromSchema a s) ∧
    (∀ exs1 exs2 : List Table, exs1.Perm exs2 → filterLoop exs1 s = filterLoop exs2 s) ∧
    (∀ (env1 env2 : Env) (opt : FilterOption),
      env1.MatchSimple = env2.MatchSimple →
      env1.NormalizeTableName = env2.NormalizeTableName →
      env1.CollectTablesAndRelations = env2.CollectTablesAndRelations →
      Filter env1 s opt = Filter env2 s opt) := by
  refine ⟨?_, ?_, fun exs1 exs2 h => filterLoop_perm exs1 exs2 s h,
    fun env1 env2 opt hm hz hc => filter_range_independent env1 env2 hm hz hc s opt⟩
  · intro a b
    have h1 : excludeTableFromSchema b (excludeTableFromSchema a s).2 =
        filterLoop [bareTable a, bareTable b] s := rfl
    have h2 : excludeTableFromSchema a (excludeTableFromSchema b s).2 =
        filterLoop [bareTable b, bareTable a] s := rfl
    rw [h1, h2]
    exact filterLoop_perm _ _ s (List.Perm.swap _ _ _)
  · intro a
    have h1 : excludeTableFromSchema a (excludeTableFromSchema a s).2 =
        filterLoop [bareTable a, bareTable a] s := rfl
    have h2 : excludeTableFromSchema a s = filterLoop [bareTable a] s := rfl
    rw [h1, h2]
    apply filterLoop_congr
    intro n
    simp

/-! ## Relations between surviving tables -/

/-- C20: after a successful `Filter` the relation list of the schema is the
sub-list of the original one made of the relations whose `Table.Name` and
`ParentTable.Name` are both not in the exclude set, in original order; every
original relation whose two endpoints are in the include set is still
there. -/
theorem filter_keeps_surviving_relations (env : Env) (s : Schema) (opt : FilterOption)
    (h : (Filter env s opt).1 = none) :
    ∃ inc exc, SepareteTablesThatAreIncludedOrNot env s opt = .ok (inc, exc) ∧
      (Filter env s opt).2.Relations =
        s.Relations.filter (fun r =>
          decide (r.Table.Name ∉ exc.map Table.Name ∧
            r.ParentTable.Name ∉ exc.map Table.Name)) ∧
      ∀ r ∈ s.Relations,
        r.Table.Name ∈ inc.map Table.Name → r.ParentTable.Name ∈ inc.map Table.Name →
          r ∈ (Filter env s opt).2.Relations := by
  obtain ⟨inc, exc, hs, hf⟩ := filter_ok env s opt h
  have hrel : (Filter env s opt).2.Relations =
      s.Relations.filter (touchesNone (exc.map Table.Name)) := by
    rw [hf]
  have hd := separete_names_disjoint env s opt inc exc hs
  have hout : ∀ k, k ∈ inc.map Table.Name → k ∉ exc.map Table.Name := by
    intro k hk hke
    obtain ⟨a, ha, hak⟩ := List.mem_map.1 hk
    obtain ⟨b, hb, hbk⟩ := List.mem_map.1 hke
    exact hd a ha b hb (hak.trans hbk.symm)
  refine ⟨inc, exc, hs, ?_, ?_⟩
  · rw [hrel]
    apply List.filter_congr
    intro r _
    rw [Bool.eq_iff_iff, touchesNone_iff, decide_eq_true_iff]
  · intro r hr h1 h2
    rw [hrel]
    exact List.mem_filter.2 ⟨hr, (touchesNone_iff _ r).2 ⟨hout _ h1, hout _ h2⟩⟩

/-- C20, on the sample schema with `Include = ["users", "posts"]`: the
relation between `posts` and `users` is kept and the one from `user_secret`
is dropped. -/
theorem filter_keeps_surviving_relations_witness :
    (Filter (refEnv demoSchema) demoSchema ⟨["users", "posts"], [], [], 0⟩).2.Relations
      = [postsToUsers] ∧
    ∃ inc exc, SepareteTablesThatAreIncludedOrNot (refEnv demoSchema) demoSchema
        ⟨["users", "posts"], [], [], 0⟩ = .ok (inc, exc) ∧
      (Filter (refEnv demoSchema) demoSchema ⟨["users", "posts"], [], [], 0⟩).2.Relations =
        demoSchema.Relations.filter (fun r =>
          decide (r.Table.Name ∉ exc.map Table.Name ∧
            r.ParentTable.Name ∉ exc.map Table.Name)) ∧
      ∀ r ∈ demoSchema.Relations,
        r.Table.Name ∈ inc.map Table.Name → r.ParentTable.Name ∈ inc.map Table.Name →
          r ∈ (Filter (refEnv demoSchema) demoSchema
            ⟨["users", "posts"], [], [], 0⟩).2.Relations :=
  ⟨rfl, filter_keeps_surviving_relations (refEnv demoSchema) demoSchema
    ⟨["users", "posts"], [], [], 0⟩ rfl⟩

end Tbls
